import Mathlib

/-!
# Verification of the waveform-analysis core (`src/waveform_analyzer.py`)

Shallow embedding of the class `WaveformAnalyzer` together with the
numpy/scipy primitives it uses (`np.linspace`, `scipy.fft.fftfreq` slicing,
`np.max`, `np.min`, `np.argmax`, `np.searchsorted`, `np.argsort`,
`scipy.signal.find_peaks`, `scipy.fft.fft`).  Real-valued samples are
modelled as `ℝ`, complex DFT outputs as `ℂ`, python lists/arrays as `List ℝ`.
Indexing `arr[i]` is modelled by `List.getD i 0`; the operations only read
in-bounds positions on the inputs the theorems quantify over.
-/

namespace WaveformSpec

/-- `np.linspace(0, t_max, n)`: `n` evenly spaced points from `0` to `t_max`
inclusive; entry `i` is `t_max * i / (n - 1)`.  (For `n = 1` numpy returns
`[0.0]`, matched here because `x / 0 = 0` in Lean.) -/
noncomputable def linspace (t_max : ℝ) (n : ℕ) : List ℝ :=
  (List.range n).map fun i : ℕ => t_max * i / ((n : ℝ) - 1)

/-- `np.max` of a nonempty array (the empty case, an error in numpy, is mapped
to 0; the code under verification never reaches it on the inputs considered). -/
noncomputable def np_max : List ℝ → ℝ
  | [] => 0
  | a :: t => t.foldl max a

/-- `np.min` of a nonempty array (empty case mapped to 0, as for `np_max`). -/
noncomputable def np_min : List ℝ → ℝ
  | [] => 0
  | a :: t => t.foldl min a

/-- `np.argmax`: index of the first occurrence of the maximum value. -/
noncomputable def np_argmax : List ℝ → ℕ
  | [] => 0
  | [_] => 0
  | a :: b :: t => if np_max (b :: t) ≤ a then 0 else np_argmax (b :: t) + 1

/-- `np.searchsorted(l, v)` with the default side (left) on an ascending
array: the first index whose entry is not `< v` (the array length if all
entries are `< v`). -/
noncomputable def searchsorted_left (v : ℝ) : List ℝ → ℕ
  | [] => 0
  | x :: t => if x < v then searchsorted_left v t + 1 else 0

/-- The boolean mask filter `arr[arr > 0]`. -/
noncomputable def filter_pos : List ℝ → List ℝ
  | [] => []
  | x :: t => if 0 < x then x :: filter_pos t else filter_pos t

/-- `np.mean`. -/
noncomputable def np_mean (w : List ℝ) : ℝ := w.sum / w.length

/-- `np.std` (population standard deviation, the numpy default `ddof=0`):
square root of the mean of the squared deviations from the mean. -/
noncomputable def np_std (w : List ℝ) : ℝ :=
  Real.sqrt (np_mean (w.map fun x => (x - np_mean w) ^ 2))

/-- Scan of `scipy.signal._local_maxima_1d`: starting at `j`, advance while
`j < n - 1` and `x j = v` (the extent of a plateau of value `v`).  `fuel`
makes the recursion structural; every caller passes enough fuel. -/
noncomputable def plateau_end (x : ℕ → ℝ) (n : ℕ) (v : ℝ) : ℕ → ℕ → ℕ
  | 0, j => j
  | fuel + 1, j => if j < n - 1 ∧ x j = v then plateau_end x n v fuel (j + 1) else j

/-- Main loop of `scipy.signal._local_maxima_1d` over `x[0..n-1]`: scan
`i = 1, …, n-2`; on a strict rise `x (i-1) < x i` find the plateau end
`pe` (first `j > i` with `x j ≠ x i`, capped at `n-1`); if `x pe < x i` the
plateau is a local maximum, reported at its midpoint `(i + pe - 1) / 2`,
and the scan resumes at `pe + 1`. -/
noncomputable def local_maxima_aux (x : ℕ → ℝ) (n : ℕ) : ℕ → ℕ → List ℕ
  | 0, _ => []
  | fuel + 1, i =>
    if i < n - 1 then
      if x (i - 1) < x i then
        if x (plateau_end x n (x i) n (i + 1)) < x i then
          (i + plateau_end x n (x i) n (i + 1) - 1) / 2 ::
            local_maxima_aux x n fuel (plateau_end x n (x i) n (i + 1) + 1)
        else local_maxima_aux x n fuel (i + 1)
      else local_maxima_aux x n fuel (i + 1)
    else []

/-- `scipy.signal._local_maxima_1d` on a list. -/
noncomputable def local_maxima (l : List ℝ) : List ℕ :=
  local_maxima_aux (fun j => l.getD j 0) l.length l.length 1

/-- Keep the indices `p` (among detected local maxima) with `l[p] ≥ h`:
the `height` filter of `scipy.signal.find_peaks`. -/
noncomputable def filter_height (h : ℝ) (l : List ℝ) : List ℕ → List ℕ
  | [] => []
  | p :: t => if h ≤ l.getD p 0 then p :: filter_height h l t
              else filter_height h l t

/-- `scipy.signal.find_peaks(l, height=h)` (first component): interior local
maxima of `l`, plateaus reported at their midpoint, filtered by `l[p] ≥ h`. -/
noncomputable def find_peaks_idx (l : List ℝ) (h : ℝ) : List ℕ :=
  filter_height h l (local_maxima l)

/-- Insert `p` into a list of indices kept in descending order of
`vals[·]`. -/
noncomputable def insert_desc (vals : List ℝ) (p : ℕ) : List ℕ → List ℕ
  | [] => [p]
  | q :: t => if vals.getD q 0 < vals.getD p 0 then p :: q :: t
              else q :: insert_desc vals p t

/-- `np.argsort(vals)[::-1]`: the indices `0, …, len vals - 1` ordered by
descending value.  (numpy's default sort is unstable, so the relative order
of equal values is unspecified there; this embedding fixes one such order —
no property proved below depends on the order among equal values.) -/
noncomputable def argsort_desc (vals : List ℝ) : List ℕ :=
  (List.range vals.length).foldr (insert_desc vals) []

/-- Indices (into the examined slice) whose entry is `≥ θ`:
`np.where(slice >= threshold)[0]`, with `i` the index of the head. -/
noncomputable def qual_idxs (θ : ℝ) : List ℝ → ℕ → List ℕ
  | [], _ => []
  | x :: t, i => if θ ≤ x then i :: qual_idxs θ t (i + 1)
                 else qual_idxs θ t (i + 1)

/-- The principal DFT root `e^(-2πi/n)`. -/
noncomputable def dftRoot (n : ℕ) : ℂ := Complex.exp (-(2 * Real.pi * Complex.I) / n)

/-- Bin `k` of `scipy.fft.fft(w)`: `∑_j w[j]·e^(-2πi·j·k/m)` with
`m = len(w)` (the transform size is the actual length of the input). -/
noncomputable def dft (w : List ℝ) (k : ℕ) : ℂ :=
  ∑ j ∈ Finset.range w.length, (w.getD j 0 : ℂ) * dftRoot w.length ^ (j * k)

/-- The analyzer configuration: the `t_max` and `n_samples` entries of
`self.config` (defaults 1.0 and 100000). -/
structure WaveformAnalyzer where
  t_max : ℝ
  n_samples : ℕ

namespace WaveformAnalyzer

/-- `self.n_freq = n_samples // 2`. -/
def n_freq (a : WaveformAnalyzer) : ℕ := a.n_samples / 2

/-- `self.t = np.linspace(0, t_max, n_samples)`. -/
noncomputable def tArr (a : WaveformAnalyzer) : List ℝ := linspace a.t_max a.n_samples

/-- `self.dt = self.t[1] - self.t[0]`. -/
noncomputable def dt (a : WaveformAnalyzer) : ℝ := a.tArr.getD 1 0 - a.tArr.getD 0 0

/-- `self.freq = fftfreq(n_samples, dt)[: n_freq]`.  For every
`k < n_samples // 2` the `k`-th entry of `fftfreq(n, d)` is `k / (n * d)`
(the slice never reaches the negative-frequency half), so the slice is
embedded directly by that formula. -/
noncomputable def freq (a : WaveformAnalyzer) : List ℝ :=
  (List.range a.n_freq).map fun k : ℕ => (k : ℝ) / (a.n_samples * a.dt)

/-- `self.freq_positive = self.freq[self.freq > 0]`. -/
noncomputable def freq_positive (a : WaveformAnalyzer) : List ℝ := filter_pos a.freq

/-- `compute_spectrum`: magnitudes of the first `n_freq` fft bins divided by
`n_samples`; if `normalize` and the maximum magnitude is `> 0`, every entry
is divided by that maximum.  (The slice `fft(wave)[:n_freq]` has
`min (len wave) n_freq` entries; no length validation is performed.) -/
noncomputable def compute_spectrum (a : WaveformAnalyzer) (w : List ℝ)
    (normalize : Bool) : List ℝ :=
  let magnitude := (List.range (min w.length a.n_freq)).map
    fun k => Complex.abs (dft w k) / a.n_samples
  if normalize = true ∧ 0 < np_max magnitude then
    magnitude.map fun x => x / np_max magnitude
  else magnitude

/-- `find_dominant_frequency`: raw spectrum, search range
`freq_positive[min_idx : max_idx]` with `min_idx = max(1, searchsorted(
freq_positive, min_freq))` and `max_idx = searchsorted(freq_positive,
max_freq)` (or `len freq_positive` when `max_freq is None`); the magnitudes
searched are `spectrum[min_idx : min_idx + len freq_range]`, and the result
is `(freq_range[argmax], spectrum_range[argmax])`, or `(0, 0)` when the
range is empty. -/
noncomputable def find_dominant_frequency (a : WaveformAnalyzer) (w : List ℝ)
    (min_freq : ℝ) (max_freq : Option ℝ) : ℝ × ℝ :=
  let spectrum := compute_spectrum a w false
  let fp := a.freq_positive
  let min_idx := max 1 (searchsorted_left min_freq fp)
  let max_idx := match max_freq with
    | none => fp.length
    | some v => searchsorted_left v fp
  let freq_range := (fp.drop min_idx).take (max_idx - min_idx)
  let spectrum_range := (spectrum.drop min_idx).take freq_range.length
  if freq_range = [] then (0, 0)
  else (freq_range.getD (np_argmax spectrum_range) 0,
        spectrum_range.getD (np_argmax spectrum_range) 0)

/-- Modelled from the spec: the dominant-frequency search as §4.3 words it,
for refinement comparison with `find_dominant_frequency`.  The sub-range of
`freq_positive` is selected exactly as in the code, but the magnitude
compared and returned at sub-range position `i` is the raw-spectrum
magnitude of the same frequency bin: `freq_positive[j]` is frequency bin
`j + 1`, so the aligned magnitudes are `spectrum[min_idx + 1 : …]`. -/
noncomputable def find_dominant_frequency_spec (a : WaveformAnalyzer) (w : List ℝ)
    (min_freq : ℝ) (max_freq : Option ℝ) : ℝ × ℝ :=
  let spectrum := compute_spectrum a w false
  let fp := a.freq_positive
  let min_idx := max 1 (searchsorted_left min_freq fp)
  let max_idx := match max_freq with
    | none => fp.length
    | some v => searchsorted_left v fp
  let freq_range := (fp.drop min_idx).take (max_idx - min_idx)
  let aligned := (spectrum.drop (min_idx + 1)).take freq_range.length
  if freq_range = [] then (0, 0)
  else (freq_range.getD (np_argmax aligned) 0,
        aligned.getD (np_argmax aligned) 0)

/-- `find_multiple_peaks`: normalized spectrum, same sub-range selection as
`find_dominant_frequency`, `find_peaks(spectrum_range, height=height)`,
then `argsort` of the peak magnitudes reversed and truncated to `n_peaks`;
returns the parallel (frequencies, magnitudes) pair. -/
noncomputable def find_multiple_peaks (a : WaveformAnalyzer) (w : List ℝ)
    (n_peaks : ℕ) (min_freq : ℝ) (max_freq : Option ℝ) (height : ℝ) :
    List ℝ × List ℝ :=
  let spectrum := compute_spectrum a w true
  let fp := a.freq_positive
  let min_idx := max 1 (searchsorted_left min_freq fp)
  let max_idx := match max_freq with
    | none => fp.length
    | some v => searchsorted_left v fp
  let freq_range := (fp.drop min_idx).take (max_idx - min_idx)
  let spectrum_range := (spectrum.drop min_idx).take freq_range.length
  if freq_range = [] then ([], [])
  else
    let peaks := find_peaks_idx spectrum_range height
    let pv := peaks.map fun p => spectrum_range.getD p 0
    let ord := (argsort_desc pv).take n_peaks
    (ord.map fun s => freq_range.getD (peaks.getD s 0) 0,
     ord.map fun s => pv.getD s 0)

/-- `compute_bandwidth`: normalized spectrum; examine
`spectrum[1 : len freq_positive + 1]`; if no examined entry is `≥ threshold`
return `(0,0,0)`, else `(freq_positive[first], freq_positive[last],
last - first)` over the qualifying indices. -/
noncomputable def compute_bandwidth (a : WaveformAnalyzer) (w : List ℝ)
    (threshold : ℝ) : ℝ × ℝ × ℝ :=
  let spectrum := compute_spectrum a w true
  let fp := a.freq_positive
  let exam := (spectrum.drop 1).take fp.length
  let idxs := qual_idxs threshold exam 0
  if idxs = [] then (0, 0, 0)
  else
    (fp.getD (idxs.headD 0) 0, fp.getD (idxs.getLastD 0) 0,
     fp.getD (idxs.getLastD 0) 0 - fp.getD (idxs.headD 0) 0)

/-- `compute_energy`: `np.sum(wave**2) * dt`. -/
noncomputable def compute_energy (a : WaveformAnalyzer) (w : List ℝ) : ℝ :=
  (w.map fun x => x ^ 2).sum * a.dt

/-- `compute_statistics`: the fixed-key mapping built by the code, embedded
as an ordered association list in the construction order of the dict. -/
noncomputable def compute_statistics (a : WaveformAnalyzer) (w : List ℝ) :
    List (String × ℝ) :=
  [("mean", np_mean w),
   ("std", np_std w),
   ("min", np_min w),
   ("max", np_max w),
   ("peak_to_peak", np_max w - np_min w),
   ("rms", Real.sqrt (np_mean (w.map fun x => x ^ 2))),
   ("energy", compute_energy a w)]

end WaveformAnalyzer

/-- `WaveformAnalyzer.__init__` / `_init_time_freq_params`: no configuration
validation is performed; the only step that can fail is
`self.dt = self.t[1] - self.t[0]`, an `IndexError` exactly when the time
array `np.linspace(0, t_max, n_samples)` has fewer than 2 entries (i.e.
`n_samples < 2`).  `none` models that failure. -/
noncomputable def mkWaveformAnalyzer (t_max : ℝ) (n_samples : ℕ) :
    Option WaveformAnalyzer :=
  if 2 ≤ (linspace t_max n_samples).length then some ⟨t_max, n_samples⟩ else none

/-! ## Basic lemmas about the embedded primitives -/

theorem linspace_length (t_max : ℝ) (n : ℕ) : (linspace t_max n).length = n := by
  rw [linspace, List.length_map, List.length_range]

theorem linspace_getD (t_max : ℝ) (n i : ℕ) (hi : i < n) :
    (linspace t_max n).getD i 0 = t_max * i / ((n : ℝ) - 1) := by
  rw [linspace, List.getD_eq_getElem?_getD, List.getElem?_map,
    List.getElem?_range hi]
  rfl

theorem compute_spectrum_false (a : WaveformAnalyzer) (w : List ℝ) :
    a.compute_spectrum w false =
      (List.range (min w.length a.n_freq)).map
        fun k => Complex.abs (dft w k) / a.n_samples := by
  simp [WaveformAnalyzer.compute_spectrum]

theorem compute_spectrum_length (a : WaveformAnalyzer) (w : List ℝ) (nrm : Bool) :
    (a.compute_spectrum w nrm).length = min w.length a.n_freq := by
  rw [WaveformAnalyzer.compute_spectrum]
  split_ifs <;> simp

theorem dft_scale (w : List ℝ) (c : ℝ) (k : ℕ) :
    dft (w.map fun x => c * x) k = c * dft w k := by
  rw [dft, dft, List.length_map, Finset.mul_sum]
  refine Finset.sum_congr rfl fun j _ => ?_
  have hg : ((w.map fun x => c * x).getD j 0) = c * w.getD j 0 := by
    rw [List.getD_eq_getElem?_getD, List.getElem?_map, List.getD_eq_getElem?_getD]
    cases h : w[j]? <;> simp [h]
  rw [hg]
  push_cast
  ring

/-! ## C6: construction-time validation -/

/-- C6 counterexample: with `t_max = 0` (≤ 0) and `n_samples = 4`, construction
does not fail — the analyzer is built, so the claim that every configuration
with `t_max ≤ 0` fails at construction time is false. -/
theorem c6_counterexample : mkWaveformAnalyzer 0 4 = some ⟨0, 4⟩ := by
  rw [mkWaveformAnalyzer, if_pos]
  rw [linspace_length]
  norm_num

/-- C6 (amended): construction fails iff `n_samples < 2` (the failure is the
out-of-bounds read `self.t[1]` while computing `dt`, after the time array was
already assigned, and it is an index error, not a configuration check);
`t_max ≤ 0` is never validated and never fails. -/
theorem c6_construction_fails_iff (t_max : ℝ) (n_samples : ℕ) :
    mkWaveformAnalyzer t_max n_samples = none ↔ n_samples < 2 := by
  rw [mkWaveformAnalyzer, linspace_length]
  split_ifs with h
  · simp only [reduceCtorEq, false_iff]
    omega
  · simp only [true_iff]
    omega

/-! ## C5: wave-length validation on analysis calls -/

/-- Evaluation helper: the spectrum of the length-1 wave `[1]` on the
`n_samples = 4` grid. -/
theorem compute_spectrum_mismatch_eval :
    WaveformAnalyzer.compute_spectrum ⟨1, 4⟩ [1] false = [1 / 4] := by
  rw [compute_spectrum_false]
  have hn : (⟨1, 4⟩ : WaveformAnalyzer).n_freq = 2 := rfl
  rw [hn]
  have h1 : dft [1] 0 = 1 := by
    simp [dft, Finset.sum_range_succ]
  rw [show List.range (min ([(1:ℝ)].length) 2) = [0] from rfl]
  simp [h1]

/-- C5 counterexample: on the `n_samples = 4` grid, the length-1 wave `[1]`
(length ≠ 4) is not rejected: `compute_spectrum` returns the value `[1/4]`
(of length 1, not `n_freq = 2`), silently transforming the wave at its
actual length. -/
theorem c5_counterexample :
    WaveformAnalyzer.compute_spectrum ⟨1, 4⟩ [1] false = [1 / 4] ∧
      (WaveformAnalyzer.compute_spectrum ⟨1, 4⟩ [1] false).length ≠
        (⟨1, 4⟩ : WaveformAnalyzer).n_freq := by
  refine ⟨compute_spectrum_mismatch_eval, ?_⟩
  rw [compute_spectrum_mismatch_eval]
  simp [WaveformAnalyzer.n_freq]

/-- C5 (amended): no length validation is performed anywhere; for every
nonempty wave, `compute_spectrum` succeeds and returns
`min (len wave) n_freq` magnitudes — a mismatched wave is transformed at its
actual length and silently truncated to at most `n_freq` bins, never
rejected.  (The empty wave is excluded: there `scipy.fft.fft` itself
raises, which is still not the length-mismatch validation the spec asks
for.) -/
theorem c5_no_length_validation (a : WaveformAnalyzer) (w : List ℝ) (nrm : Bool)
    (_hw : w ≠ []) :
    (a.compute_spectrum w nrm).length = min w.length a.n_freq :=
  compute_spectrum_length a w nrm

theorem c5_no_length_validation_witness :
    ([(1 : ℝ)] ≠ []) ∧
      (WaveformAnalyzer.compute_spectrum ⟨1, 4⟩ [1] false).length =
        min ([(1 : ℝ)].length) ((⟨1, 4⟩ : WaveformAnalyzer).n_freq) :=
  ⟨by simp, c5_no_length_validation ⟨1, 4⟩ [1] false (by simp)⟩

/-! ## C7: homogeneity of the raw spectrum -/

/-- C7: the raw (un-normalized) spectrum is homogeneous: scaling the wave by
`c > 0` scales every magnitude by `c`. -/
theorem c7_spectrum_homogeneous (a : WaveformAnalyzer) (w : List ℝ) (c : ℝ)
    (hc : 0 < c) :
    a.compute_spectrum (w.map fun x => c * x) false =
      (a.compute_spectrum w false).map fun x => c * x := by
  rw [compute_spectrum_false, compute_spectrum_false, List.length_map,
    List.map_map]
  refine List.map_congr_left fun k _ => ?_
  simp only [Function.comp_apply]
  rw [dft_scale]
  rw [map_mul, Complex.abs_ofReal, abs_of_pos hc]
  ring

theorem c7_spectrum_homogeneous_witness :
    (0 : ℝ) < 2 ∧
      WaveformAnalyzer.compute_spectrum ⟨1, 4⟩ ([1].map fun x => (2 : ℝ) * x) false =
        (WaveformAnalyzer.compute_spectrum ⟨1, 4⟩ [1] false).map fun x => (2 : ℝ) * x :=
  ⟨by norm_num, c7_spectrum_homogeneous ⟨1, 4⟩ [1] 2 (by norm_num)⟩

/-! ## Grid lemmas -/

theorem dt_eq (t_max : ℝ) (n : ℕ) (hn : 2 ≤ n) :
    (⟨t_max, n⟩ : WaveformAnalyzer).dt = t_max / ((n : ℝ) - 1) := by
  rw [WaveformAnalyzer.dt, WaveformAnalyzer.tArr]
  rw [linspace_getD t_max n 1 (by omega), linspace_getD t_max n 0 (by omega)]
  norm_num

theorem dt_pos (t_max : ℝ) (n : ℕ) (ht : 0 < t_max) (hn : 2 ≤ n) :
    0 < (⟨t_max, n⟩ : WaveformAnalyzer).dt := by
  rw [dt_eq t_max n hn]
  apply div_pos ht
  have : (2 : ℝ) ≤ (n : ℝ) := by exact_mod_cast hn
  linarith

theorem freq_length (a : WaveformAnalyzer) : a.freq.length = a.n_samples / 2 := by
  rw [WaveformAnalyzer.freq, List.length_map, List.length_range,
    WaveformAnalyzer.n_freq]

theorem freq_getD (a : WaveformAnalyzer) (k : ℕ) (hk : k < a.n_freq) :
    a.freq.getD k 0 = (k : ℝ) / (a.n_samples * a.dt) := by
  rw [WaveformAnalyzer.freq, List.getD_eq_getElem?_getD, List.getElem?_map,
    List.getElem?_range hk]
  rfl

theorem filter_pos_of_all_pos (l : List ℝ) (h : ∀ x ∈ l, 0 < x) :
    filter_pos l = l := by
  induction l with
  | nil => rfl
  | cons a t ih =>
    rw [filter_pos, if_pos (h a (by simp)), ih fun x hx => h x (by simp [hx])]

theorem freq_eq_cons (a : WaveformAnalyzer) (h1 : 1 ≤ a.n_freq) :
    a.freq = 0 :: (List.range (a.n_freq - 1)).map
      fun k : ℕ => ((k : ℝ) + 1) / (a.n_samples * a.dt) := by
  obtain ⟨m, hm⟩ : ∃ m, a.n_freq = m + 1 := ⟨a.n_freq - 1, by omega⟩
  rw [WaveformAnalyzer.freq, hm, List.range_succ_eq_map, List.map_cons,
    List.map_map, show m + 1 - 1 = m from rfl]
  congr 1
  · norm_num
  · refine List.map_congr_left fun k _ => ?_
    simp only [Function.comp_apply, Nat.succ_eq_add_one]
    push_cast
    ring

theorem freq_positive_eq_tail (a : WaveformAnalyzer)
    (hpos : 0 < (a.n_samples : ℝ) * a.dt) (h1 : 1 ≤ a.n_freq) :
    a.freq_positive = a.freq.tail := by
  rw [WaveformAnalyzer.freq_positive, freq_eq_cons a h1, filter_pos,
    if_neg (by norm_num), List.tail_cons]
  apply filter_pos_of_all_pos
  intro x hx
  rw [List.mem_map] at hx
  obtain ⟨k, _, rfl⟩ := hx
  apply div_pos _ hpos
  positivity

theorem freq_sorted (a : WaveformAnalyzer)
    (hpos : 0 < (a.n_samples : ℝ) * a.dt) :
    a.freq.Sorted (· < ·) := by
  rw [WaveformAnalyzer.freq, List.Sorted, List.pairwise_map]
  have h := List.pairwise_lt_range a.n_freq
  apply h.imp
  intro i j hij
  rw [div_lt_div_iff_of_pos_right hpos]
  exact_mod_cast hij

theorem ndt_pos (t_max : ℝ) (n : ℕ) (ht : 0 < t_max) (hn : 2 ≤ n) :
    0 < (n : ℝ) * (⟨t_max, n⟩ : WaveformAnalyzer).dt := by
  apply mul_pos _ (dt_pos t_max n ht hn)
  have : (2 : ℝ) ≤ (n : ℝ) := by exact_mod_cast hn
  linarith

theorem n_freq_pos (t_max : ℝ) (n : ℕ) (hn : 2 ≤ n) :
    1 ≤ (⟨t_max, n⟩ : WaveformAnalyzer).n_freq := by
  show 1 ≤ n / 2
  omega

theorem freq_positive_all_pos (a : WaveformAnalyzer)
    (hpos : 0 < (a.n_samples : ℝ) * a.dt) (h1 : 1 ≤ a.n_freq) :
    ∀ v ∈ a.freq_positive, 0 < v := by
  intro v hv
  rw [freq_positive_eq_tail a hpos h1, freq_eq_cons a h1, List.tail_cons,
    List.mem_map] at hv
  obtain ⟨k, _, rfl⟩ := hv
  apply div_pos _ hpos
  positivity

theorem freq_positive_getD (a : WaveformAnalyzer)
    (hpos : 0 < (a.n_samples : ℝ) * a.dt) (h1 : 1 ≤ a.n_freq) (i : ℕ) :
    a.freq_positive.getD i 0 = a.freq.getD (i + 1) 0 := by
  rw [freq_positive_eq_tail a hpos h1]
  rcases h : a.freq with _ | ⟨c, rest⟩
  · simp
  · rw [List.tail_cons, List.getD_cons_succ]

theorem freq_positive_length (a : WaveformAnalyzer)
    (hpos : 0 < (a.n_samples : ℝ) * a.dt) (h1 : 1 ≤ a.n_freq) :
    a.freq_positive.length = a.freq.length - 1 := by
  rw [freq_positive_eq_tail a hpos h1, List.length_tail]

theorem freq_positive_sorted (a : WaveformAnalyzer)
    (hpos : 0 < (a.n_samples : ℝ) * a.dt) (h1 : 1 ≤ a.n_freq) :
    a.freq_positive.Sorted (· < ·) := by
  rw [freq_positive_eq_tail a hpos h1]
  rcases h : a.freq with _ | ⟨c, rest⟩
  · simp
  · have hs := freq_sorted a hpos
    rw [h] at hs
    exact hs.of_cons

/-! ## C8: grid invariants -/

/-- The grid facts asserted by C8, for the analyzer `⟨t_max, n⟩`:
`dt = t_max / (n - 1)`; `freq` has `n / 2` entries with entry
`k = k / (n·dt)`, sorted (strictly) ascending; `freq_positive` drops
exactly the DC bin (it is the tail of `freq`), so its length is one less,
and all its entries are positive. -/
def gridInvariants (t_max : ℝ) (n : ℕ) : Prop :=
  (⟨t_max, n⟩ : WaveformAnalyzer).dt = t_max / ((n : ℝ) - 1) ∧
  (⟨t_max, n⟩ : WaveformAnalyzer).freq.length = n / 2 ∧
  (∀ k < n / 2, (⟨t_max, n⟩ : WaveformAnalyzer).freq.getD k 0 =
    (k : ℝ) / ((n : ℝ) * (⟨t_max, n⟩ : WaveformAnalyzer).dt)) ∧
  (⟨t_max, n⟩ : WaveformAnalyzer).freq.Sorted (· < ·) ∧
  (⟨t_max, n⟩ : WaveformAnalyzer).freq_positive =
    (⟨t_max, n⟩ : WaveformAnalyzer).freq.tail ∧
  (⟨t_max, n⟩ : WaveformAnalyzer).freq_positive.length =
    (⟨t_max, n⟩ : WaveformAnalyzer).freq.length - 1 ∧
  ∀ v ∈ (⟨t_max, n⟩ : WaveformAnalyzer).freq_positive, 0 < v

/-- C8: every valid construction (`t_max > 0`, `n_samples ≥ 2`) satisfies the
grid invariants.  (The grid is an immutable value in this embedding — every
operation is a pure function of the analyzer and the wave — so preservation
by the operations is automatic.) -/
theorem c8_grid_invariants (t_max : ℝ) (n : ℕ) (ht : 0 < t_max) (hn : 2 ≤ n) :
    gridInvariants t_max n := by
  have hpos := ndt_pos t_max n ht hn
  have h1 := n_freq_pos t_max n hn
  refine ⟨dt_eq t_max n hn, freq_length _, ?_, freq_sorted _ hpos,
    freq_positive_eq_tail _ hpos h1, freq_positive_length _ hpos h1,
    freq_positive_all_pos _ hpos h1⟩
  intro k hk
  exact freq_getD _ k hk

theorem c8_grid_invariants_witness :
    (0 : ℝ) < 1 ∧ 2 ≤ 5 ∧ gridInvariants 1 5 :=
  ⟨by norm_num, by norm_num, c8_grid_invariants 1 5 (by norm_num) (by norm_num)⟩

/-! ## np.max lemmas -/

theorem foldl_max_init_le (t : List ℝ) (a : ℝ) : a ≤ t.foldl max a := by
  induction t generalizing a with
  | nil => exact le_refl a
  | cons b t ih => exact le_trans (le_max_left a b) (ih (max a b))

theorem foldl_max_le_of_mem (t : List ℝ) (a x : ℝ) (hx : x ∈ t) :
    x ≤ t.foldl max a := by
  induction t generalizing a with
  | nil => cases hx
  | cons b t ih =>
    rcases List.mem_cons.mp hx with rfl | hx
    · exact le_trans (le_max_right a x) (foldl_max_init_le t (max a x))
    · exact ih (max a b) hx

theorem le_np_max (l : List ℝ) (x : ℝ) (hx : x ∈ l) : x ≤ np_max l := by
  rcases l with _ | ⟨a, t⟩
  · cases hx
  · rcases List.mem_cons.mp hx with rfl | hx
    · exact foldl_max_init_le t x
    · exact foldl_max_le_of_mem t a x hx

theorem foldl_max_mem (t : List ℝ) (a : ℝ) :
    t.foldl max a = a ∨ t.foldl max a ∈ t := by
  induction t generalizing a with
  | nil => exact Or.inl rfl
  | cons b t ih =>
    rcases ih (max a b) with h | h
    · rcases max_cases a b with ⟨hm, _⟩ | ⟨hm, _⟩
      · rw [List.foldl_cons, h, hm]
        exact Or.inl rfl
      · rw [List.foldl_cons, h, hm]
        exact Or.inr (by simp)
    · exact Or.inr (List.mem_cons_of_mem b h)

theorem np_max_mem (l : List ℝ) (hl : l ≠ []) : np_max l ∈ l := by
  rcases l with _ | ⟨a, t⟩
  · exact absurd rfl hl
  · rw [np_max]
    rcases foldl_max_mem t a with h | h
    · rw [h]; simp
    · exact List.mem_cons_of_mem a h

theorem np_max_nil : np_max ([] : List ℝ) = 0 := rfl

theorem np_max_cons (a : ℝ) (t : List ℝ) : np_max (a :: t) = t.foldl max a := rfl

theorem max_div_pos (a b c : ℝ) (hc : 0 < c) : max a b / c = max (a / c) (b / c) := by
  rcases le_total a b with h | h
  · rw [max_eq_right h, max_eq_right (by gcongr)]
  · rw [max_eq_left h, max_eq_left (by gcongr)]

theorem foldl_max_map_div (t : List ℝ) (a c : ℝ) (hc : 0 < c) :
    (t.map fun x => x / c).foldl max (a / c) = t.foldl max a / c := by
  induction t generalizing a with
  | nil => rfl
  | cons b t ih =>
    rw [List.map_cons, List.foldl_cons, List.foldl_cons, ← max_div_pos a b c hc,
      ih (max a b)]

theorem np_max_map_div (l : List ℝ) (c : ℝ) (hc : 0 < c) :
    np_max (l.map fun x => x / c) = np_max l / c := by
  rcases l with _ | ⟨a, t⟩
  · rw [List.map_nil, np_max_nil, zero_div]
  · rw [List.map_cons, np_max_cons, np_max_cons, foldl_max_map_div t a c hc]

/-! ## C2: normalized spectrum -/

theorem raw_spectrum_nonneg (a : WaveformAnalyzer) (w : List ℝ) :
    ∀ v ∈ a.compute_spectrum w false, 0 ≤ v := by
  intro v hv
  rw [compute_spectrum_false, List.mem_map] at hv
  obtain ⟨k, _, rfl⟩ := hv
  positivity

/-- The behaviour C2 describes for `compute_spectrum(wave, normalize=True)`
on a wave of the grid length, with the maximum-element clause conditioned on
a strictly positive raw maximum (rather than on a non-zero wave): the output
has `n/2` entries, all in `[0,1]`; when the raw maximum is positive the
output is the raw spectrum divided by it and its maximum is exactly 1; when
the raw maximum is 0 normalization is skipped and the raw (all-zero)
spectrum is returned unchanged, with no division anywhere. -/
def normalizedSpectrumProp (t_max : ℝ) (n : ℕ) (w : List ℝ) : Prop :=
  (WaveformAnalyzer.compute_spectrum ⟨t_max, n⟩ w true).length = n / 2 ∧
  (∀ v ∈ WaveformAnalyzer.compute_spectrum ⟨t_max, n⟩ w true, 0 ≤ v ∧ v ≤ 1) ∧
  (0 < np_max (WaveformAnalyzer.compute_spectrum ⟨t_max, n⟩ w false) →
    WaveformAnalyzer.compute_spectrum ⟨t_max, n⟩ w true =
      (WaveformAnalyzer.compute_spectrum ⟨t_max, n⟩ w false).map
        (fun x => x / np_max (WaveformAnalyzer.compute_spectrum ⟨t_max, n⟩ w false)) ∧
    np_max (WaveformAnalyzer.compute_spectrum ⟨t_max, n⟩ w true) = 1) ∧
  (¬ 0 < np_max (WaveformAnalyzer.compute_spectrum ⟨t_max, n⟩ w false) →
    WaveformAnalyzer.compute_spectrum ⟨t_max, n⟩ w true =
      WaveformAnalyzer.compute_spectrum ⟨t_max, n⟩ w false ∧
    ∀ v ∈ WaveformAnalyzer.compute_spectrum ⟨t_max, n⟩ w true, v = 0)

theorem compute_spectrum_true_eq (a : WaveformAnalyzer) (w : List ℝ) :
    a.compute_spectrum w true =
      if 0 < np_max (a.compute_spectrum w false) then
        (a.compute_spectrum w false).map
          (fun x => x / np_max (a.compute_spectrum w false))
      else a.compute_spectrum w false := by
  rw [compute_spectrum_false, WaveformAnalyzer.compute_spectrum]
  split_ifs with h1 h2 h2 <;> first
  | rfl
  | (exact absurd ⟨rfl, h2⟩ h1)
  | (exact absurd h1.2 h2)

/-- C2 (amended): the normalized spectrum has `n/2` entries, all in `[0,1]`;
it is the raw spectrum divided by its maximum — with maximum exactly 1 —
whenever the raw maximum is strictly positive, and the unchanged all-zero
raw spectrum otherwise.  (A non-zero wave does not guarantee a positive raw
maximum: the kept half-spectrum can be identically zero, see the
counterexample.) -/
theorem c2_normalized_spectrum (t_max : ℝ) (n : ℕ) (w : List ℝ)
    (hw : w.length = n) : normalizedSpectrumProp t_max n w := by
  set a : WaveformAnalyzer := ⟨t_max, n⟩ with ha
  have hnn := raw_spectrum_nonneg a w
  have hlen : (a.compute_spectrum w true).length = n / 2 := by
    rw [compute_spectrum_length, hw]
    show min n (n / 2) = n / 2
    omega
  have htrue := compute_spectrum_true_eq a w
  by_cases hM : 0 < np_max (a.compute_spectrum w false)
  · rw [if_pos hM] at htrue
    have hout1 : np_max (a.compute_spectrum w true) = 1 := by
      rw [htrue, np_max_map_div _ _ hM, div_self (ne_of_gt hM)]
    refine ⟨hlen, ?_, fun _ => ⟨htrue, hout1⟩, fun h => absurd hM h⟩
    intro v hv
    rw [htrue, List.mem_map] at hv
    obtain ⟨x, hx, rfl⟩ := hv
    constructor
    · exact div_nonneg (hnn x hx) (le_of_lt hM)
    · rw [div_le_one hM]
      exact le_np_max _ x hx
  · rw [if_neg hM] at htrue
    have hzero : ∀ v ∈ a.compute_spectrum w true, v = 0 := by
      intro v hv
      rw [htrue] at hv
      have h1 := hnn v hv
      have h2 := le_np_max _ v hv
      have h3 : np_max (a.compute_spectrum w false) ≤ 0 := not_lt.mp hM
      linarith
    refine ⟨hlen, ?_, fun h => absurd h hM, fun _ => ⟨htrue, hzero⟩⟩
    intro v hv
    rw [hzero v hv]
    norm_num

theorem c2_normalized_spectrum_witness :
    ([(1 : ℝ), -1].length = 2) ∧ normalizedSpectrumProp 1 2 [1, -1] :=
  ⟨by simp, c2_normalized_spectrum 1 2 [1, -1] (by simp)⟩

/-- The spectrum of the wave `[1, -1]` on the `n_samples = 2` grid: only the
DC bin is kept (`n_freq = 1`) and it is zero, so the returned spectrum is
`[0]` although the wave is non-zero. -/
theorem compute_spectrum_nyquist_eval :
    WaveformAnalyzer.compute_spectrum ⟨1, 2⟩ [1, -1] true = [0] := by
  have hdft : dft [1, -1] 0 = 0 := by
    simp [dft, Finset.sum_range_succ]
  have hraw : WaveformAnalyzer.compute_spectrum ⟨1, 2⟩ [1, -1] false = [0] := by
    rw [compute_spectrum_false]
    rw [show List.range (min ([(1:ℝ), -1].length) ((⟨1,2⟩ : WaveformAnalyzer).n_freq)) = [0]
        from rfl]
    simp [hdft]
  rw [compute_spectrum_true_eq, hraw]
  rw [if_neg (by rw [show np_max [(0:ℝ)] = 0 from rfl]; norm_num)]

/-- C2 counterexample: the non-zero wave `[1, -1]` on the `n_samples = 2`
grid (a pure Nyquist-frequency wave) has normalized spectrum `[0]`, whose
maximum element is 0, not 1 — the claim that the maximum equals 1 whenever
the wave is non-zero is false. -/
theorem c2_counterexample :
    ([(1 : ℝ), -1] ≠ List.replicate 2 (0 : ℝ)) ∧
      WaveformAnalyzer.compute_spectrum ⟨1, 2⟩ [1, -1] true = [0] ∧
      np_max (WaveformAnalyzer.compute_spectrum ⟨1, 2⟩ [1, -1] true) ≠ 1 := by
  refine ⟨by simp, compute_spectrum_nyquist_eval, ?_⟩
  rw [compute_spectrum_nyquist_eval]
  rw [show np_max [(0:ℝ)] = 0 from rfl]
  norm_num

/-! ## np.min lemmas -/

theorem foldl_min_le_init (t : List ℝ) (a : ℝ) : t.foldl min a ≤ a := by
  induction t generalizing a with
  | nil => exact le_refl a
  | cons b t ih => exact le_trans (ih (min a b)) (min_le_left a b)

theorem foldl_min_le_of_mem (t : List ℝ) (a x : ℝ) (hx : x ∈ t) :
    t.foldl min a ≤ x := by
  induction t generalizing a with
  | nil => cases hx
  | cons b t ih =>
    rcases List.mem_cons.mp hx with rfl | hx
    · exact le_trans (foldl_min_le_init t (min a x)) (min_le_right a x)
    · exact ih (min a b) hx

theorem np_min_le (l : List ℝ) (x : ℝ) (hx : x ∈ l) : np_min l ≤ x := by
  rcases l with _ | ⟨a, t⟩
  · cases hx
  · rcases List.mem_cons.mp hx with rfl | hx
    · exact foldl_min_le_init t x
    · exact foldl_min_le_of_mem t a x hx

theorem foldl_min_mem (t : List ℝ) (a : ℝ) :
    t.foldl min a = a ∨ t.foldl min a ∈ t := by
  induction t generalizing a with
  | nil => exact Or.inl rfl
  | cons b t ih =>
    rcases ih (min a b) with h | h
    · rcases min_cases a b with ⟨hm, _⟩ | ⟨hm, _⟩
      · rw [List.foldl_cons, h, hm]
        exact Or.inl rfl
      · rw [List.foldl_cons, h, hm]
        exact Or.inr (by simp)
    · exact Or.inr (List.mem_cons_of_mem b h)

theorem np_min_mem (l : List ℝ) (hl : l ≠ []) : np_min l ∈ l := by
  rcases l with _ | ⟨a, t⟩
  · exact absurd rfl hl
  · rw [show np_min (a :: t) = t.foldl min a from rfl]
    rcases foldl_min_mem t a with h | h
    · rw [h]; simp
    · exact List.mem_cons_of_mem a h

/-! ## C9: energy and statistics -/

/-- The facts C9 asserts about `compute_energy` and `compute_statistics` on a
non-empty wave: energy is the sum of squared amplitudes times `dt`; the
mapping has exactly the seven keys, in order; `mean` is the arithmetic
mean, `std` the population standard deviation, `min`/`max` are an element of
the wave and a lower/upper bound for it, `peak_to_peak` is the stored max
minus the stored min, `rms` is the square root of the mean square, and
`energy` equals `compute_energy`. -/
def statisticsProp (a : WaveformAnalyzer) (w : List ℝ) : Prop :=
  a.compute_energy w = (w.map fun x => x ^ 2).sum * a.dt ∧
  (a.compute_statistics w).map Prod.fst =
    ["mean", "std", "min", "max", "peak_to_peak", "rms", "energy"] ∧
  (a.compute_statistics w).getD 0 ("", 0) = ("mean", w.sum / w.length) ∧
  (a.compute_statistics w).getD 1 ("", 0) =
    ("std", Real.sqrt ((w.map fun x => (x - w.sum / w.length) ^ 2).sum / w.length)) ∧
  ((a.compute_statistics w).getD 2 ("", 0)).2 ∈ w ∧
  (∀ v ∈ w, ((a.compute_statistics w).getD 2 ("", 0)).2 ≤ v) ∧
  ((a.compute_statistics w).getD 3 ("", 0)).2 ∈ w ∧
  (∀ v ∈ w, v ≤ ((a.compute_statistics w).getD 3 ("", 0)).2) ∧
  ((a.compute_statistics w).getD 4 ("", 0)).2 =
    ((a.compute_statistics w).getD 3 ("", 0)).2 -
      ((a.compute_statistics w).getD 2 ("", 0)).2 ∧
  (a.compute_statistics w).getD 5 ("", 0) =
    ("rms", Real.sqrt ((w.map fun x => x ^ 2).sum / w.length)) ∧
  ((a.compute_statistics w).getD 6 ("", 0)).2 = a.compute_energy w

/-- C9: on every non-empty wave, `compute_energy` and `compute_statistics`
have exactly the shape and values the spec states. -/
theorem c9_statistics (a : WaveformAnalyzer) (w : List ℝ) (hw : w ≠ []) :
    statisticsProp a w := by
  refine ⟨rfl, rfl, rfl, ?_, np_min_mem w hw, fun v hv => np_min_le w v hv,
    np_max_mem w hw, fun v hv => le_np_max w v hv, rfl, ?_, rfl⟩
  · show ("std", np_std w) = _
    rw [np_std, np_mean, np_mean, List.length_map]
  · show ("rms", Real.sqrt (np_mean (w.map fun x => x ^ 2))) = _
    rw [np_mean, List.length_map]

theorem c9_statistics_witness :
    ([(1 : ℝ), 2] ≠ []) ∧ statisticsProp ⟨1, 2⟩ [1, 2] :=
  ⟨by simp, c9_statistics ⟨1, 2⟩ [1, 2] (by simp)⟩

/-! ## List-slice and sorted-list helpers -/

theorem slice_getD (l : List ℝ) (a b d : ℕ) (hd : d < b) :
    ((l.drop a).take b).getD d 0 = l.getD (a + d) 0 := by
  rw [List.getD_eq_getElem?_getD, List.getElem?_take, if_pos hd,
    List.getElem?_drop, List.getD_eq_getElem?_getD]

theorem slice_length (l : List ℝ) (a b : ℕ) :
    ((l.drop a).take b).length = min b (l.length - a) := by
  rw [List.length_take, List.length_drop]

theorem getD_mem {α : Type} (l : List α) (n : ℕ) (d : α) (h : n < l.length) :
    l.getD n d ∈ l := by
  rw [List.getD_eq_getElem?_getD, List.getElem?_eq_getElem h]
  exact List.getElem_mem h

theorem getD_map_of_lt {α β : Type} (f : α → β) (l : List α) (s : ℕ) (d : α)
    (d2 : β) (h : s < l.length) : (l.map f).getD s d2 = f (l.getD s d) := by
  rw [List.getD_eq_getElem _ _ (by rwa [List.length_map]),
    List.getD_eq_getElem _ _ h, List.getElem_map]

theorem sorted_lt_getD_mono (l : List ℝ) (hs : l.Sorted (· < ·)) (i j : ℕ)
    (hij : i ≤ j) (hj : j < l.length) : l.getD i 0 ≤ l.getD j 0 := by
  have hi : i < l.length := lt_of_le_of_lt hij hj
  rw [List.getD_eq_getElem l 0 hi, List.getD_eq_getElem l 0 hj]
  rcases lt_or_eq_of_le hij with h | h
  · exact le_of_lt (List.pairwise_iff_getElem.mp hs i j hi hj h)
  · subst h
    exact le_refl _

/-! ## qual_idxs lemmas (the np.where mask of compute_bandwidth) -/

theorem qual_idxs_mem (θ : ℝ) (l : List ℝ) (i j : ℕ) :
    j ∈ qual_idxs θ l i ↔ ∃ d, d < l.length ∧ j = i + d ∧ θ ≤ l.getD d 0 := by
  induction l generalizing i with
  | nil => simp [qual_idxs]
  | cons x t ih =>
    rw [qual_idxs]
    constructor
    · intro hj
      split_ifs at hj with hθ
      · rcases List.mem_cons.mp hj with rfl | hj
        · exact ⟨0, by rw [List.length_cons]; omega, by omega, by simpa using hθ⟩
        · obtain ⟨d, hd, rfl, hq⟩ := (ih (i + 1)).mp hj
          exact ⟨d + 1, by rw [List.length_cons]; omega, by omega, by simpa using hq⟩
      · obtain ⟨d, hd, rfl, hq⟩ := (ih (i + 1)).mp hj
        exact ⟨d + 1, by rw [List.length_cons]; omega, by omega, by simpa using hq⟩
    · rintro ⟨d, hd, rfl, hq⟩
      rcases d with _ | d
      · rw [List.getD_cons_zero] at hq
        rw [if_pos hq]
        simp
      · rw [List.getD_cons_succ] at hq
        rw [List.length_cons] at hd
        have hmem : i + (d + 1) ∈ qual_idxs θ t (i + 1) :=
          (ih (i + 1)).mpr ⟨d, by omega, by omega, hq⟩
        split_ifs with hθ
        · exact List.mem_cons_of_mem _ hmem
        · exact hmem

theorem qual_idxs_eq_nil (θ : ℝ) (l : List ℝ) (i : ℕ) :
    qual_idxs θ l i = [] ↔ ∀ v ∈ l, v < θ := by
  induction l generalizing i with
  | nil => simp [qual_idxs]
  | cons x t ih =>
    rw [qual_idxs]
    split_ifs with hθ
    · simp only [reduceCtorEq, false_iff]
      intro h
      exact absurd (h x (by simp)) (not_lt.mpr hθ)
    · rw [ih (i + 1)]
      constructor
      · intro h v hv
        rcases List.mem_cons.mp hv with rfl | hv
        · exact not_le.mp hθ
        · exact h v hv
      · intro h v hv
        exact h v (List.mem_cons_of_mem x hv)

theorem qual_idxs_ge (θ : ℝ) (l : List ℝ) (i j : ℕ) (hj : j ∈ qual_idxs θ l i) :
    i ≤ j := by
  obtain ⟨d, _, rfl, _⟩ := (qual_idxs_mem θ l i j).mp hj
  omega

theorem qual_idxs_pairwise (θ : ℝ) (l : List ℝ) (i : ℕ) :
    (qual_idxs θ l i).Pairwise (· < ·) := by
  induction l generalizing i with
  | nil => exact List.Pairwise.nil
  | cons x t ih =>
    rw [qual_idxs]
    split_ifs with hθ
    · refine List.Pairwise.cons ?_ (ih (i + 1))
      intro j hj
      have := qual_idxs_ge θ t (i + 1) j hj
      omega
    · exact ih (i + 1)

theorem headD_mem (l : List ℕ) (hl : l ≠ []) : l.headD 0 ∈ l := by
  rcases l with _ | ⟨a, t⟩
  · exact absurd rfl hl
  · simp

theorem getLastD_cons_irrel (b : ℕ) (t : List ℕ) (d : ℕ) :
    (b :: t).getLastD d = (b :: t).getLastD 0 := by
  rw [List.getLastD_cons, List.getLastD_cons]

theorem getLastD_mem_cons (t : List ℕ) (a : ℕ) : (a :: t).getLastD 0 ∈ a :: t := by
  induction t generalizing a with
  | nil => simp
  | cons b t ih =>
    rw [List.getLastD_cons, getLastD_cons_irrel]
    exact List.mem_cons_of_mem a (ih b)

theorem getLastD_mem (l : List ℕ) (hl : l ≠ []) : l.getLastD 0 ∈ l := by
  rcases l with _ | ⟨a, t⟩
  · exact absurd rfl hl
  · exact getLastD_mem_cons t a

theorem pairwise_lt_headD_le (l : List ℕ) (hp : l.Pairwise (· < ·)) (j : ℕ)
    (hj : j ∈ l) : l.headD 0 ≤ j := by
  rcases l with _ | ⟨a, t⟩
  · cases hj
  · rcases List.mem_cons.mp hj with rfl | hj
    · exact le_refl j
    · exact le_of_lt ((List.pairwise_cons.mp hp).1 j hj)

theorem getLastD_eq_getD (l : List ℕ) (hl : l ≠ []) :
    l.getLastD 0 = l.getD (l.length - 1) 0 := by
  have hb : l.length - 1 < l.length := by
    have := List.length_pos.mpr hl
    omega
  rw [List.getLastD_eq_getLast?, List.getLast?_eq_getLast l hl,
    Option.getD_some, List.getLast_eq_getElem, List.getD_eq_getElem l 0 hb]

theorem pairwise_lt_le_getLastD (l : List ℕ) (hp : l.Pairwise (· < ·)) (j : ℕ)
    (hj : j ∈ l) : j ≤ l.getLastD 0 := by
  have hl : l ≠ [] := by rintro rfl; cases hj
  have hb : l.length - 1 < l.length := by
    have := List.length_pos.mpr hl
    omega
  rw [getLastD_eq_getD l hl, List.getD_eq_getElem l 0 hb]
  obtain ⟨p, hpl, rfl⟩ := List.mem_iff_getElem.mp hj
  rcases Nat.lt_or_ge p (l.length - 1) with h | h
  · exact le_of_lt (List.pairwise_iff_getElem.mp hp p (l.length - 1) hpl hb h)
  · have hpe : p = l.length - 1 := by omega
    subst hpe
    exact le_refl _

/-! ## C3: bandwidth -/

theorem spectrum_true_bounds (a : WaveformAnalyzer) (w : List ℝ) :
    ∀ v ∈ a.compute_spectrum w true, 0 ≤ v ∧ v ≤ 1 := by
  have hnn := raw_spectrum_nonneg a w
  have htrue := compute_spectrum_true_eq a w
  by_cases hM : 0 < np_max (a.compute_spectrum w false)
  · rw [if_pos hM] at htrue
    intro v hv
    rw [htrue, List.mem_map] at hv
    obtain ⟨x, hx, rfl⟩ := hv
    refine ⟨div_nonneg (hnn x hx) (le_of_lt hM), ?_⟩
    rw [div_le_one hM]
    exact le_np_max _ x hx
  · rw [if_neg hM] at htrue
    intro v hv
    rw [htrue] at hv
    have h1 := hnn v hv
    have h2 := le_np_max _ v hv
    have h3 : np_max (a.compute_spectrum w false) ≤ 0 := not_lt.mp hM
    constructor <;> linarith

/-- The behaviour C3 asserts for `compute_bandwidth(wave, threshold)`:
with `exam` the normalized-spectrum slice aligned to `freq_positive`
(raw indices 1 … len freq_positive), the sentinel `(0,0,0)` is returned
exactly when no examined magnitude is `≥ threshold` (in particular always
when `threshold = 1.1`); otherwise the result is `(freq_positive[i1],
freq_positive[i2], difference)` where `i1`/`i2` are the first/last
qualifying positions, with `low ≤ high` and `bandwidth = high - low`. -/
def bandwidthProp (t_max : ℝ) (n : ℕ) (w : List ℝ) (θ : ℝ) : Prop :=
  let a : WaveformAnalyzer := ⟨t_max, n⟩
  let fp := a.freq_positive
  let exam := ((a.compute_spectrum w true).drop 1).take fp.length
  (a.compute_bandwidth w θ = (0, 0, 0) ↔ ∀ v ∈ exam, v < θ) ∧
  (θ = 1.1 → a.compute_bandwidth w θ = (0, 0, 0)) ∧
  (¬ (∀ v ∈ exam, v < θ) →
    ∃ i1 i2, i1 ≤ i2 ∧ i2 < fp.length ∧
      θ ≤ exam.getD i1 0 ∧ θ ≤ exam.getD i2 0 ∧
      (∀ d, d < exam.length → θ ≤ exam.getD d 0 → i1 ≤ d ∧ d ≤ i2) ∧
      a.compute_bandwidth w θ =
        (fp.getD i1 0, fp.getD i2 0, fp.getD i2 0 - fp.getD i1 0) ∧
      fp.getD i1 0 ≤ fp.getD i2 0)

/-- C3: on every valid grid, for every wave and threshold,
`compute_bandwidth` behaves as described by `bandwidthProp`. -/
theorem c3_bandwidth (t_max : ℝ) (n : ℕ) (w : List ℝ) (θ : ℝ)
    (ht : 0 < t_max) (hn : 2 ≤ n) : bandwidthProp t_max n w θ := by
  have hpos := ndt_pos t_max n ht hn
  have h1 := n_freq_pos t_max n hn
  set a : WaveformAnalyzer := ⟨t_max, n⟩ with ha
  set fp := a.freq_positive with hfp
  set exam := ((a.compute_spectrum w true).drop 1).take fp.length with hexam
  have hfps : fp.Sorted (· < ·) := freq_positive_sorted a hpos h1
  have hfpp : ∀ v ∈ fp, 0 < v := freq_positive_all_pos a hpos h1
  have hexam_len : exam.length ≤ fp.length := by
    rw [hexam, slice_length]
    exact min_le_left _ _
  have hexam_sub : ∀ v ∈ exam, v ∈ a.compute_spectrum w true := by
    intro v hv
    exact List.drop_subset 1 _ (List.take_subset _ _ hv)
  have hbw : a.compute_bandwidth w θ =
      if qual_idxs θ exam 0 = [] then (0, 0, 0)
      else (fp.getD ((qual_idxs θ exam 0).headD 0) 0,
            fp.getD ((qual_idxs θ exam 0).getLastD 0) 0,
            fp.getD ((qual_idxs θ exam 0).getLastD 0) 0 -
              fp.getD ((qual_idxs θ exam 0).headD 0) 0) := by
    simp only [WaveformAnalyzer.compute_bandwidth]
  by_cases hq : qual_idxs θ exam 0 = []
  · rw [hq, if_pos rfl] at hbw
    have hall : ∀ v ∈ exam, v < θ := (qual_idxs_eq_nil θ exam 0).mp hq
    exact ⟨by rw [hbw]; exact ⟨fun _ => hall, fun _ => rfl⟩,
      fun _ => hbw, fun h => absurd hall h⟩
  · rw [if_neg hq] at hbw
    have hpw := qual_idxs_pairwise θ exam 0
    obtain ⟨d1, hd1, he1, hq1⟩ :=
      (qual_idxs_mem θ exam 0 _).mp (headD_mem _ hq)
    obtain ⟨d2, hd2, he2, hq2⟩ :=
      (qual_idxs_mem θ exam 0 _).mp (getLastD_mem _ hq)
    rw [zero_add] at he1 he2
    rw [he1, he2] at hbw
    have hmem1 : d1 ∈ qual_idxs θ exam 0 := he1 ▸ headD_mem _ hq
    have h12 : d1 ≤ d2 := by
      have h := pairwise_lt_le_getLastD _ hpw d1 hmem1
      rwa [he2] at h
    have hd2fp : d2 < fp.length := lt_of_lt_of_le hd2 hexam_len
    have hvq : θ ≤ exam.getD d1 0 := hq1
    have hnotall : ¬ (∀ v ∈ exam, v < θ) := by
      intro hall
      exact absurd (hall (exam.getD d1 0) (getD_mem exam d1 0 hd1)) (not_lt.mpr hq1)
    have hne : fp.getD d1 0 ≠ 0 := by
      have := hfpp (fp.getD d1 0) (getD_mem fp d1 0 (lt_of_le_of_lt h12 hd2fp))
      linarith
    refine ⟨?_, ?_, ?_⟩
    · rw [hbw]
      constructor
      · intro heq
        have := congrArg Prod.fst heq
        simp only at this
        exact absurd this hne
      · intro hall
        exact absurd hall hnotall
    · intro hθ
      have hb := spectrum_true_bounds a w (exam.getD d1 0)
        (hexam_sub _ (getD_mem exam d1 0 hd1))
      rw [hθ] at hq1
      linarith [hb.2]
    · intro _
      refine ⟨d1, d2, h12, hd2fp, hq1, hq2, ?_, hbw, ?_⟩
      · intro d hd hqd
        have hdm : d ∈ qual_idxs θ exam 0 :=
          (qual_idxs_mem θ exam 0 d).mpr ⟨d, hd, by omega, hqd⟩
        have hhd := pairwise_lt_headD_le _ hpw d hdm
        have hld := pairwise_lt_le_getLastD _ hpw d hdm
        rw [he1] at hhd
        rw [he2] at hld
        exact ⟨hhd, hld⟩
      · exact sorted_lt_getD_mono fp hfps d1 d2 h12 hd2fp

theorem c3_bandwidth_witness :
    (0 : ℝ) < 1 ∧ 2 ≤ 4 ∧ bandwidthProp 1 4 [1, 2, 3, 4] (1 / 2) :=
  ⟨by norm_num, by norm_num, c3_bandwidth 1 4 [1, 2, 3, 4] (1 / 2) (by norm_num) (by norm_num)⟩

/-! ## np.argmax and np.searchsorted lemmas -/

theorem foldl_max_max (t : List ℝ) (a b : ℝ) :
    t.foldl max (max a b) = max a (t.foldl max b) := by
  induction t generalizing b with
  | nil => rfl
  | cons c t ih =>
    rw [List.foldl_cons, List.foldl_cons, max_assoc, ih (max b c)]

theorem np_max_cons_cons (a b : ℝ) (t : List ℝ) :
    np_max (a :: b :: t) = max a (np_max (b :: t)) := by
  rw [np_max_cons, np_max_cons, List.foldl_cons, foldl_max_max]

theorem np_argmax_spec (l : List ℝ) (hl : l ≠ []) :
    np_argmax l < l.length ∧ l.getD (np_argmax l) 0 = np_max l ∧
      ∀ i < np_argmax l, l.getD i 0 < np_max l := by
  induction l with
  | nil => exact absurd rfl hl
  | cons a t ih =>
    rcases t with _ | ⟨b, t⟩
    · refine ⟨by rw [show np_argmax [a] = 0 from rfl]; simp, rfl, ?_⟩
      intro i hi
      rw [show np_argmax [a] = 0 from rfl] at hi
      omega
    · obtain ⟨ih1, ih2, ih3⟩ := ih (by simp)
      rw [show np_argmax (a :: b :: t) =
          if np_max (b :: t) ≤ a then 0 else np_argmax (b :: t) + 1 from rfl,
        np_max_cons_cons]
      split_ifs with h
      · refine ⟨by rw [List.length_cons]; omega, ?_, ?_⟩
        · rw [List.getD_cons_zero, max_eq_left h]
        · intro i hi
          omega
      · push_neg at h
        refine ⟨by rw [List.length_cons]; omega, ?_, ?_⟩
        · rw [List.getD_cons_succ, max_eq_right (le_of_lt h), ih2]
        · intro i hi
          rcases i with _ | i
          · rw [List.getD_cons_zero, max_eq_right (le_of_lt h)]
            exact h
          · rw [List.getD_cons_succ, max_eq_right (le_of_lt h)]
            exact ih3 i (by omega)

theorem searchsorted_le_length (v : ℝ) (l : List ℝ) :
    searchsorted_left v l ≤ l.length := by
  induction l with
  | nil => exact le_refl 0
  | cons x t ih =>
    rw [searchsorted_left, List.length_cons]
    split_ifs <;> omega

theorem searchsorted_below (v : ℝ) (l : List ℝ) :
    ∀ i < searchsorted_left v l, l.getD i 0 < v := by
  induction l with
  | nil => intro i hi; rw [searchsorted_left] at hi; omega
  | cons x t ih =>
    intro i hi
    rw [searchsorted_left] at hi
    split_ifs at hi with hx
    · rcases i with _ | i
      · rwa [List.getD_cons_zero]
      · rw [List.getD_cons_succ]
        exact ih i (by omega)
    · omega

theorem searchsorted_above (v : ℝ) (l : List ℝ) (hs : l.Sorted (· < ·)) :
    ∀ i, searchsorted_left v l ≤ i → i < l.length → v ≤ l.getD i 0 := by
  induction l with
  | nil => intro i _ hi; rw [List.length_nil] at hi; omega
  | cons x t ih =>
    intro i hge hi
    rw [searchsorted_left] at hge
    rw [List.length_cons] at hi
    split_ifs at hge with hx
    · rcases i with _ | i
      · omega
      · rw [List.getD_cons_succ]
        exact ih hs.of_cons i (by omega) (by omega)
    · push_neg at hx
      rcases i with _ | i
      · rwa [List.getD_cons_zero]
      · rw [List.getD_cons_succ]
        have hmem : t.getD i 0 ∈ t := getD_mem t i 0 (by omega)
        have hlt : x < t.getD i 0 := (List.pairwise_cons.mp hs).1 _ hmem
        linarith

/-! ## C1: dominant frequency -/

/-- The behaviour of `find_dominant_frequency` with the frequency/magnitude
alignment as the code actually computes it.  With `m = max 1 (searchsorted
freq_positive min_freq)` and `M` the upper searchsorted bound (or
`len freq_positive`), the searched range `fr = freq_positive[m:M]` contains
only values `≥ min_freq` (and `< max_freq` when given); if it is empty the
sentinel `(0,0)` is returned; otherwise, with `j` the stable argmax of
`sr = spectrum[m : m + len fr]`, the result is `(freq_positive[m+j],
spectrum[m+j])` — and since `freq_positive[i]` is the frequency of raw bin
`i+1` (`freq[i+1]`) while `spectrum[i]` is the magnitude of raw bin `i`,
the reported frequency belongs to the bin one above the bin whose magnitude
is reported. -/
def dominantProp (t_max : ℝ) (n : ℕ) (w : List ℝ) (min_freq : ℝ)
    (max_freq : Option ℝ) : Prop :=
  let a : WaveformAnalyzer := ⟨t_max, n⟩
  let spectrum := a.compute_spectrum w false
  let fp := a.freq_positive
  let m := max 1 (searchsorted_left min_freq fp)
  let M := match max_freq with
    | none => fp.length
    | some v => searchsorted_left v fp
  let fr := (fp.drop m).take (M - m)
  let sr := (spectrum.drop m).take fr.length
  (fr = [] → a.find_dominant_frequency w min_freq max_freq = (0, 0)) ∧
  (∀ f ∈ fr, min_freq ≤ f) ∧
  (∀ v, max_freq = some v → ∀ f ∈ fr, f < v) ∧
  (fr ≠ [] →
    sr.length = fr.length ∧
    np_argmax sr < sr.length ∧
    a.find_dominant_frequency w min_freq max_freq =
      (fp.getD (m + np_argmax sr) 0, spectrum.getD (m + np_argmax sr) 0) ∧
    spectrum.getD (m + np_argmax sr) 0 = np_max sr ∧
    (∀ i < sr.length, sr.getD i 0 ≤ np_max sr) ∧
    (∀ i < np_argmax sr, sr.getD i 0 < np_max sr) ∧
    fp.getD (m + np_argmax sr) 0 = a.freq.getD (m + np_argmax sr + 1) 0)

/-- C1 (amended): the range restriction, clamping, sentinel and stable
argmax behave as claimed, but the returned pair is misaligned by one
frequency bin: the magnitude returned (and maximized) is
`spectrum[m + j]`, the magnitude of bin `m + j`, while the frequency
returned is `freq_positive[m + j] = freq[m + j + 1]`, the frequency of bin
`m + j + 1` — not the same frequency bin. -/
theorem c1_dominant_frequency (t_max : ℝ) (n : ℕ) (w : List ℝ)
    (min_freq : ℝ) (max_freq : Option ℝ) (ht : 0 < t_max) (hn : 2 ≤ n)
    (hw : w.length = n) : dominantProp t_max n w min_freq max_freq := by
  have hpos := ndt_pos t_max n ht hn
  have h1 := n_freq_pos t_max n hn
  set a : WaveformAnalyzer := ⟨t_max, n⟩ with ha
  set spectrum := a.compute_spectrum w false with hspec_def
  set fp := a.freq_positive with hfp_def
  set m := max 1 (searchsorted_left min_freq fp) with hm_def
  set M := (match max_freq with
    | none => fp.length
    | some v => searchsorted_left v fp) with hM_def
  set fr := (fp.drop m).take (M - m) with hfr_def
  set sr := (spectrum.drop m).take fr.length with hsr_def
  have hfps : fp.Sorted (· < ·) := freq_positive_sorted a hpos h1
  have hfpl : fp.length = n / 2 - 1 := by
    rw [hfp_def, freq_positive_length a hpos h1, freq_length]
  have hspecl : spectrum.length = n / 2 := by
    rw [hspec_def, compute_spectrum_length, hw]
    show min n (n / 2) = n / 2
    omega
  have hM : M ≤ fp.length := by
    rw [hM_def]
    rcases max_freq with _ | v
    · exact le_refl _
    · exact searchsorted_le_length v fp
  have hmss : searchsorted_left min_freq fp ≤ m := le_max_right _ _
  have hfrl : fr.length = min (M - m) (fp.length - m) := slice_length fp m (M - m)
  have hfr_lt : ∀ d < fr.length, d < M - m ∧ m + d < fp.length := by
    intro d hd
    rw [hfrl] at hd
    omega
  have hfr_getD : ∀ d < fr.length, fr.getD d 0 = fp.getD (m + d) 0 := by
    intro d hd
    exact slice_getD fp m (M - m) d (hfr_lt d hd).1
  have hsrl : sr.length = fr.length := by
    rw [hsr_def, slice_length, hspecl]
    rw [hfrl]
    omega
  have hsr_getD : ∀ d < fr.length, sr.getD d 0 = spectrum.getD (m + d) 0 := by
    intro d hd
    exact slice_getD spectrum m fr.length d hd
  have hres : a.find_dominant_frequency w min_freq max_freq =
      if fr = [] then (0, 0)
      else (fr.getD (np_argmax sr) 0, sr.getD (np_argmax sr) 0) := by
    simp only [WaveformAnalyzer.find_dominant_frequency]
  refine ⟨?_, ?_, ?_, ?_⟩
  · intro hfr
    rw [hres, if_pos hfr]
  · intro f hf
    obtain ⟨d, hd, rfl⟩ := List.mem_iff_getElem.mp hf
    rw [← List.getD_eq_getElem fr 0 hd, hfr_getD d hd]
    exact searchsorted_above min_freq fp hfps (m + d)
      (le_trans hmss (by omega)) (hfr_lt d hd).2
  · intro v hv f hf
    obtain ⟨d, hd, rfl⟩ := List.mem_iff_getElem.mp hf
    rw [← List.getD_eq_getElem fr 0 hd, hfr_getD d hd]
    have hMv : M = searchsorted_left v fp := by
      rw [hM_def, hv]
    have hlt : m + d < searchsorted_left v fp := by
      have := (hfr_lt d hd).1
      omega
    exact searchsorted_below v fp (m + d) hlt
  · intro hfr
    have hfrpos : 0 < fr.length := List.length_pos.mpr hfr
    have hsrne : sr ≠ [] := by
      intro h
      rw [h] at hsrl
      simp at hsrl
      omega
    obtain ⟨hj1, hj2, hj3⟩ := np_argmax_spec sr hsrne
    have hjfr : np_argmax sr < fr.length := by rwa [hsrl] at hj1
    refine ⟨hsrl, hj1, ?_, ?_, ?_, ?_, ?_⟩
    · rw [hres, if_neg hfr, hfr_getD _ hjfr, hsr_getD _ hjfr]
    · rw [← hsr_getD _ hjfr]
      exact hj2
    · intro i hi
      rw [hsrl] at hi
      rw [hsr_getD i hi] at *
      rw [← hsr_getD i hi]
      exact le_np_max sr _ (getD_mem sr i 0 (by rwa [hsrl]))
    · intro i hi
      exact hj3 i hi
    · exact freq_positive_getD a hpos h1 (m + np_argmax sr)

theorem c1_dominant_frequency_witness :
    (0 : ℝ) < 7 ∧ 2 ≤ 8 ∧ ([(1:ℝ), 0, -1, 0, 1, 0, -1, 0].length = 8) ∧
      dominantProp 7 8 [1, 0, -1, 0, 1, 0, -1, 0] (1 / 8) none :=
  ⟨by norm_num, by norm_num, by simp,
    c1_dominant_frequency 7 8 [1, 0, -1, 0, 1, 0, -1, 0] (1 / 8) none
      (by norm_num) (by norm_num) (by simp)⟩

/-! ## C1 counterexample: concrete evaluation on the n_samples = 8 grid

The wave below has raw half-spectrum `[0, 0, 1/2, 0]` (all energy in bin 2).
With `min_freq = 1/8`, the search range is misaligned: the code pairs the
maximal magnitude `spectrum[2] = 1/2` (bin 2) with `freq_positive[2] = 3/8`
(bin 3), while the same-bin reading of the spec pairs it with
`freq_positive[1] = 1/4` (bin 2). -/

theorem dftRoot8_sq : dftRoot 8 ^ 2 = -Complex.I := by
  have h : dftRoot 8 ^ 2 = Complex.exp (((-(Real.pi / 2) : ℝ) : ℂ) * Complex.I) := by
    rw [dftRoot, ← Complex.exp_nat_mul]
    congr 1
    push_cast
    ring
  rw [h, Complex.exp_mul_I, ← Complex.ofReal_cos, ← Complex.ofReal_sin]
  rw [Real.cos_neg, Real.sin_neg, Real.cos_pi_div_two, Real.sin_pi_div_two]
  simp

theorem dft_w8 : dft [1, 0, -1, 0, 1, 0, -1, 0] 0 = 0 ∧
    dft [1, 0, -1, 0, 1, 0, -1, 0] 1 = 0 ∧
    dft [1, 0, -1, 0, 1, 0, -1, 0] 2 = 4 ∧
    dft [1, 0, -1, 0, 1, 0, -1, 0] 3 = 0 := by
  have h2 := dftRoot8_sq
  have h4 : dftRoot 8 ^ 4 = -1 := by
    rw [show (4:ℕ) = 2*2 from rfl, pow_mul, h2]
    rw [neg_pow]
    simp [Complex.I_sq]
  have h6 : dftRoot 8 ^ 6 = Complex.I := by
    rw [show (6:ℕ) = 2*3 from rfl, pow_mul, h2]
    rw [neg_pow]
    simp [pow_succ, Complex.I_sq]
  have h8 : dftRoot 8 ^ 8 = 1 := by
    rw [show (8:ℕ) = 4*2 from rfl, pow_mul, h4]
    norm_num
  have h12 : dftRoot 8 ^ 12 = -1 := by
    rw [show (12:ℕ) = 8+4 from rfl, pow_add, h8, h4]
    norm_num
  have h18 : dftRoot 8 ^ 18 = -Complex.I := by
    rw [show (18:ℕ) = 8+8+2 from rfl, pow_add, pow_add, h8, h2]
    norm_num
  refine ⟨?_, ?_, ?_, ?_⟩ <;>
    norm_num [dft, Finset.sum_range_succ, List.getD, h2, h4, h6, h8, h12, h18]

theorem spec8_eval :
    WaveformAnalyzer.compute_spectrum ⟨7, 8⟩ [1, 0, -1, 0, 1, 0, -1, 0] false =
      [0, 0, 1 / 2, 0] := by
  obtain ⟨h0, h1, h2, h3⟩ := dft_w8
  rw [compute_spectrum_false]
  rw [show (min ([(1:ℝ), 0, -1, 0, 1, 0, -1, 0].length)
      ((⟨7, 8⟩ : WaveformAnalyzer).n_freq)) = 4 from rfl]
  rw [show List.range 4 = [0, 1, 2, 3] from rfl]
  simp only [List.map_cons, List.map_nil, h0, h1, h2, h3]
  norm_num

theorem fp8_eval :
    WaveformAnalyzer.freq_positive ⟨7, 8⟩ = [1 / 8, 1 / 4, 3 / 8] := by
  have hdt : (⟨7, 8⟩ : WaveformAnalyzer).dt = 1 := by
    rw [dt_eq 7 8 (by norm_num)]
    norm_num
  have hfreq : WaveformAnalyzer.freq ⟨7, 8⟩ = [0, 1 / 8, 1 / 4, 3 / 8] := by
    rw [WaveformAnalyzer.freq, hdt]
    rw [show (⟨7, 8⟩ : WaveformAnalyzer).n_freq = 4 from rfl]
    rw [show List.range 4 = [0, 1, 2, 3] from rfl]
    rw [show ((⟨7, 8⟩ : WaveformAnalyzer).n_samples : ℝ) = 8 from by norm_num]
    norm_num
  rw [WaveformAnalyzer.freq_positive, hfreq]
  norm_num [filter_pos]

/-- C1 counterexample: on the valid `t_max = 7`, `n_samples = 8` grid (so
`dt = 1`, `freq_positive = [1/8, 1/4, 3/8]`), the wave with raw spectrum
`[0, 0, 1/2, 0]` makes `find_dominant_frequency(wave, 1/8)` return
`(3/8, 1/2)`: the magnitude `1/2` belongs to frequency bin `1/4`, not to the
returned frequency `3/8`, so the frequency and the magnitude do not
correspond to the same frequency bin as the claim states (the same-bin
selection, `find_dominant_frequency_spec`, returns `(1/4, 1/2)`). -/
theorem c1_counterexample :
    WaveformAnalyzer.find_dominant_frequency ⟨7, 8⟩ [1, 0, -1, 0, 1, 0, -1, 0]
        (1 / 8) none = (3 / 8, 1 / 2) ∧
      WaveformAnalyzer.find_dominant_frequency_spec ⟨7, 8⟩ [1, 0, -1, 0, 1, 0, -1, 0]
        (1 / 8) none = (1 / 4, 1 / 2) ∧
      WaveformAnalyzer.find_dominant_frequency ⟨7, 8⟩ [1, 0, -1, 0, 1, 0, -1, 0]
          (1 / 8) none ≠
        WaveformAnalyzer.find_dominant_frequency_spec ⟨7, 8⟩ [1, 0, -1, 0, 1, 0, -1, 0]
          (1 / 8) none := by
  have hcode : WaveformAnalyzer.find_dominant_frequency ⟨7, 8⟩
      [1, 0, -1, 0, 1, 0, -1, 0] (1 / 8) none = (3 / 8, 1 / 2) := by
    simp only [WaveformAnalyzer.find_dominant_frequency, spec8_eval, fp8_eval]
    norm_num [searchsorted_left, np_argmax, np_max, List.getD]
    intro h
    simp at h
  have hspec : WaveformAnalyzer.find_dominant_frequency_spec ⟨7, 8⟩
      [1, 0, -1, 0, 1, 0, -1, 0] (1 / 8) none = (1 / 4, 1 / 2) := by
    simp only [WaveformAnalyzer.find_dominant_frequency_spec, spec8_eval, fp8_eval]
    norm_num [searchsorted_left, np_argmax, np_max, List.getD]
    intro h
    simp at h
  refine ⟨hcode, hspec, ?_⟩
  rw [hcode, hspec]
  intro h
  have := congrArg Prod.fst h
  norm_num at this

/-! ## Lemmas about the scipy peak detector and np.argsort -/

theorem plateau_end_ge (x : ℕ → ℝ) (n : ℕ) (v : ℝ) (fuel j : ℕ) :
    j ≤ plateau_end x n v fuel j := by
  induction fuel generalizing j with
  | zero => exact le_refl j
  | succ fuel ih =>
    rw [plateau_end]
    split_ifs with h
    · exact le_trans (by omega) (ih (j + 1))
    · exact le_refl j

theorem plateau_end_le (x : ℕ → ℝ) (n : ℕ) (v : ℝ) (fuel j : ℕ)
    (hj : j ≤ n - 1) : plateau_end x n v fuel j ≤ n - 1 := by
  induction fuel generalizing j with
  | zero => exact hj
  | succ fuel ih =>
    rw [plateau_end]
    split_ifs with h
    · exact ih (j + 1) (by omega)
    · exact hj

theorem plateau_end_flat (x : ℕ → ℝ) (n : ℕ) (v : ℝ) (fuel j : ℕ) :
    ∀ i, j ≤ i → i < plateau_end x n v fuel j → x i = v := by
  induction fuel generalizing j with
  | zero =>
    intro i h1 h2
    rw [plateau_end] at h2
    omega
  | succ fuel ih =>
    intro i h1 h2
    rw [plateau_end] at h2
    split_ifs at h2 with h
    · rcases Nat.lt_or_ge i (j + 1) with hij | hij
      · have : i = j := by omega
        subst this
        exact h.2
      · exact ih (j + 1) i hij h2
    · omega

/-- Every index reported by the scipy local-maxima scan (started at any
`i ≥ 1`) is interior (`1 ≤ p`, `p + 1 < n`) and a weak local maximum:
its value is `≥` both immediate neighbours (with equality possible inside a
plateau of equal values). -/
theorem local_maxima_aux_spec (x : ℕ → ℝ) (n : ℕ) (fuel : ℕ) :
    ∀ i, 1 ≤ i → ∀ p ∈ local_maxima_aux x n fuel i,
      1 ≤ p ∧ p + 1 < n ∧ x (p - 1) ≤ x p ∧ x (p + 1) ≤ x p := by
  induction fuel with
  | zero =>
    intro i _ p hp
    rw [local_maxima_aux] at hp
    cases hp
  | succ fuel ih =>
    intro i hi p hp
    rw [local_maxima_aux] at hp
    by_cases h1 : i < n - 1
    · rw [if_pos h1] at hp
      by_cases h2 : x (i - 1) < x i
      · rw [if_pos h2] at hp
        by_cases h3 : x (plateau_end x n (x i) n (i + 1)) < x i
        · rw [if_pos h3] at hp
          rcases List.mem_cons.mp hp with rfl | hp
          · have hge := plateau_end_ge x n (x i) n (i + 1)
            have hle := plateau_end_le x n (x i) n (i + 1) (by omega)
            have hflat := plateau_end_flat x n (x i) n (i + 1)
            set pe := plateau_end x n (x i) n (i + 1) with hpe
            have hflat2 : ∀ t, i ≤ t → t < pe → x t = x i := by
              intro t ht1 ht2
              rcases Nat.lt_or_ge t (i + 1) with ht | ht
              · have : t = i := by omega
                subst this
                rfl
              · exact hflat t ht ht2
            have hplo : i ≤ (i + pe - 1) / 2 := by omega
            have hphi : (i + pe - 1) / 2 ≤ pe - 1 := by omega
            have hxp : x ((i + pe - 1) / 2) = x i :=
              hflat2 _ hplo (by omega)
            refine ⟨by omega, by omega, ?_, ?_⟩
            · rcases Nat.lt_or_ge i ((i + pe - 1) / 2) with hc | hc
              · rw [hxp, hflat2 ((i + pe - 1) / 2 - 1) (by omega) (by omega)]
              · have : (i + pe - 1) / 2 = i := by omega
                rw [this]
                exact le_of_lt h2
            · rcases Nat.lt_or_ge ((i + pe - 1) / 2 + 1) pe with hc | hc
              · rw [hxp, hflat2 ((i + pe - 1) / 2 + 1) (by omega) hc]
              · have : (i + pe - 1) / 2 + 1 = pe := by omega
                rw [this, hxp]
                exact le_of_lt h3
          · exact ih _ (by
              have := plateau_end_ge x n (x i) n (i + 1)
              omega) p hp
        · rw [if_neg h3] at hp
          exact ih (i + 1) (by omega) p hp
      · rw [if_neg h2] at hp
        exact ih (i + 1) (by omega) p hp
    · rw [if_neg h1] at hp
      cases hp

theorem lm_aux_stop (x : ℕ → ℝ) (n fuel i : ℕ) (h : ¬ i < n - 1) :
    local_maxima_aux x n (fuel + 1) i = [] := by
  rw [local_maxima_aux, if_neg h]

theorem lm_aux_norise (x : ℕ → ℝ) (n fuel i : ℕ) (h : i < n - 1)
    (h2 : ¬ x (i - 1) < x i) :
    local_maxima_aux x n (fuel + 1) i = local_maxima_aux x n fuel (i + 1) := by
  rw [local_maxima_aux, if_pos h, if_neg h2]

theorem lm_aux_peak (x : ℕ → ℝ) (n fuel i pe : ℕ)
    (hpe : plateau_end x n (x i) n (i + 1) = pe) (h : i < n - 1)
    (h2 : x (i - 1) < x i) (h3 : x pe < x i) :
    local_maxima_aux x n (fuel + 1) i =
      (i + pe - 1) / 2 :: local_maxima_aux x n fuel (pe + 1) := by
  rw [local_maxima_aux, if_pos h, if_pos h2, hpe, if_pos h3]

theorem local_maxima_spec (l : List ℝ) :
    ∀ p ∈ local_maxima l,
      1 ≤ p ∧ p + 1 < l.length ∧
        l.getD (p - 1) 0 ≤ l.getD p 0 ∧ l.getD (p + 1) 0 ≤ l.getD p 0 :=
  local_maxima_aux_spec (fun j => l.getD j 0) l.length l.length 1 (le_refl 1)

theorem filter_height_mem (h : ℝ) (l : List ℝ) (ps : List ℕ) (p : ℕ) :
    p ∈ filter_height h l ps ↔ p ∈ ps ∧ h ≤ l.getD p 0 := by
  induction ps with
  | nil => simp [filter_height]
  | cons q t ih =>
    rw [filter_height]
    split_ifs with hq
    · constructor
      · intro hp
        rcases List.mem_cons.mp hp with rfl | hp
        · exact ⟨by simp, hq⟩
        · obtain ⟨h1, h2⟩ := ih.mp hp
          exact ⟨List.mem_cons_of_mem q h1, h2⟩
      · rintro ⟨h1, h2⟩
        rcases List.mem_cons.mp h1 with rfl | h1
        · simp
        · exact List.mem_cons_of_mem q (ih.mpr ⟨h1, h2⟩)
    · constructor
      · intro hp
        obtain ⟨h1, h2⟩ := ih.mp hp
        exact ⟨List.mem_cons_of_mem q h1, h2⟩
      · rintro ⟨h1, h2⟩
        rcases List.mem_cons.mp h1 with rfl | h1
        · exact absurd h2 hq
        · exact ih.mpr ⟨h1, h2⟩

theorem find_peaks_idx_mem (l : List ℝ) (h : ℝ) (p : ℕ) :
    p ∈ find_peaks_idx l h ↔ p ∈ local_maxima l ∧ h ≤ l.getD p 0 :=
  filter_height_mem h l (local_maxima l) p

theorem insert_desc_mem (vals : List ℝ) (p q : ℕ) (ts : List ℕ) :
    q ∈ insert_desc vals p ts ↔ q = p ∨ q ∈ ts := by
  induction ts with
  | nil => simp [insert_desc]
  | cons r t ih =>
    rw [insert_desc]
    split_ifs with hr
    · constructor
      · intro hq
        rcases List.mem_cons.mp hq with rfl | hq
        · exact Or.inl rfl
        · exact Or.inr hq
      · rintro (rfl | hq)
        · simp
        · exact List.mem_cons_of_mem p hq
    · constructor
      · intro hq
        rcases List.mem_cons.mp hq with rfl | hq
        · exact Or.inr (by simp)
        · rcases ih.mp hq with h | h
          · exact Or.inl h
          · exact Or.inr (List.mem_cons_of_mem r h)
      · rintro (rfl | hq)
        · exact List.mem_cons_of_mem r (ih.mpr (Or.inl rfl))
        · rcases List.mem_cons.mp hq with rfl | hq
          · simp
          · exact List.mem_cons_of_mem r (ih.mpr (Or.inr hq))

theorem insert_desc_pairwise (vals : List ℝ) (p : ℕ) (ts : List ℕ)
    (hts : ts.Pairwise (fun a b => vals.getD b 0 ≤ vals.getD a 0)) :
    (insert_desc vals p ts).Pairwise
      (fun a b => vals.getD b 0 ≤ vals.getD a 0) := by
  induction ts with
  | nil => simp [insert_desc]
  | cons r t ih =>
    obtain ⟨hr_row, ht⟩ := List.pairwise_cons.mp hts
    rw [insert_desc]
    split_ifs with hr
    · refine List.pairwise_cons.mpr ⟨?_, hts⟩
      intro b hb
      rcases List.mem_cons.mp hb with rfl | hb
      · exact le_of_lt hr
      · exact le_trans (hr_row b hb) (le_of_lt hr)
    · refine List.pairwise_cons.mpr ⟨?_, ih ht⟩
      intro b hb
      rcases (insert_desc_mem vals p b t).mp hb with rfl | hb
      · exact not_lt.mp hr
      · exact hr_row b hb

theorem argsort_desc_mem (vals : List ℝ) (q : ℕ) :
    q ∈ argsort_desc vals ↔ q < vals.length := by
  rw [argsort_desc]
  have core : ∀ L : List ℕ, q ∈ L.foldr (insert_desc vals) [] ↔ q ∈ L := by
    intro L
    induction L with
    | nil => simp
    | cons r t ih =>
      rw [List.foldr_cons, insert_desc_mem]
      rw [ih]
      constructor
      · rintro (rfl | h)
        · simp
        · exact List.mem_cons_of_mem r h
      · intro h
        rcases List.mem_cons.mp h with rfl | h
        · exact Or.inl rfl
        · exact Or.inr h
  rw [core, List.mem_range]

theorem argsort_desc_pairwise (vals : List ℝ) :
    (argsort_desc vals).Pairwise (fun a b => vals.getD b 0 ≤ vals.getD a 0) := by
  rw [argsort_desc]
  have core : ∀ L : List ℕ,
      (L.foldr (insert_desc vals) []).Pairwise
        (fun a b => vals.getD b 0 ≤ vals.getD a 0) := by
    intro L
    induction L with
    | nil => exact List.Pairwise.nil
    | cons r t ih =>
      rw [List.foldr_cons]
      exact insert_desc_pairwise vals r _ ih
  exact core _

/-! ## C4: multiple peaks -/

/-- The behaviour C4 asserts for `find_multiple_peaks`: with the same
restricted sub-range (`fr`, `sr`) as `find_dominant_frequency` but over the
normalized spectrum, the two returned sequences are parallel (equal length),
contain at most `n_peaks` entries, are empty whenever the sub-range is empty
or no detected peak passes the height filter, have magnitudes ordered by
descending value (strictly descending when the returned magnitudes are
pairwise distinct), and every returned (frequency, magnitude) pair comes
from a detected peak `p`: an interior weak local maximum of the searched
magnitude range with magnitude `≥ height`. -/
def multiplePeaksProp (t_max : ℝ) (n : ℕ) (w : List ℝ) (n_peaks : ℕ)
    (min_freq : ℝ) (max_freq : Option ℝ) (height : ℝ) : Prop :=
  let a : WaveformAnalyzer := ⟨t_max, n⟩
  let spectrum := a.compute_spectrum w true
  let fp := a.freq_positive
  let m := max 1 (searchsorted_left min_freq fp)
  let M := match max_freq with
    | none => fp.length
    | some v => searchsorted_left v fp
  let fr := (fp.drop m).take (M - m)
  let sr := (spectrum.drop m).take fr.length
  let res := a.find_multiple_peaks w n_peaks min_freq max_freq height
  res.1.length = res.2.length ∧
  res.1.length ≤ n_peaks ∧
  (fr = [] → res = ([], [])) ∧
  (find_peaks_idx sr height = [] → res = ([], [])) ∧
  res.2.Pairwise (fun x y => y ≤ x) ∧
  (res.2.Pairwise (fun x y => x ≠ y) → res.2.Pairwise (fun x y => y < x)) ∧
  ∀ q ∈ res.1.zip res.2, ∃ p ∈ find_peaks_idx sr height,
    q.1 = fr.getD p 0 ∧ q.2 = sr.getD p 0 ∧
    1 ≤ p ∧ p + 1 < sr.length ∧ height ≤ sr.getD p 0 ∧
    sr.getD (p - 1) 0 ≤ sr.getD p 0 ∧ sr.getD (p + 1) 0 ≤ sr.getD p 0

set_option maxHeartbeats 1000000 in
/-- C4: `find_multiple_peaks` satisfies `multiplePeaksProp` for every grid,
wave and parameter choice (no validity hypotheses are even needed). -/
theorem c4_multiple_peaks (t_max : ℝ) (n : ℕ) (w : List ℝ) (n_peaks : ℕ)
    (min_freq : ℝ) (max_freq : Option ℝ) (height : ℝ) :
    multiplePeaksProp t_max n w n_peaks min_freq max_freq height := by
  set a : WaveformAnalyzer := ⟨t_max, n⟩ with ha
  set spectrum := a.compute_spectrum w true with hspec_def
  set fp := a.freq_positive with hfp_def
  set m := max 1 (searchsorted_left min_freq fp) with hm_def
  set M := (match max_freq with
    | none => fp.length
    | some v => searchsorted_left v fp) with hM_def
  set fr := (fp.drop m).take (M - m) with hfr_def
  set sr := (spectrum.drop m).take fr.length with hsr_def
  set peaks := find_peaks_idx sr height with hpeaks_def
  set pv := peaks.map (fun p => sr.getD p 0) with hpv_def
  set ord := (argsort_desc pv).take n_peaks with hord_def
  have hres : a.find_multiple_peaks w n_peaks min_freq max_freq height =
      if fr = [] then ([], [])
      else (ord.map fun s => fr.getD (peaks.getD s 0) 0,
            ord.map fun s => pv.getD s 0) := by
    simp only [WaveformAnalyzer.find_multiple_peaks]
  by_cases hfr : fr = []
  · have hres2 : a.find_multiple_peaks w n_peaks min_freq max_freq height =
        ([], []) := by rw [hres, if_pos hfr]
    refine ⟨?_, ?_, fun _ => hres2, fun _ => hres2, ?_, ?_, ?_⟩
    · rw [hres2]
    · rw [hres2]
      simp
    · rw [hres2]
      exact List.Pairwise.nil
    · rw [hres2]
      intro _
      exact List.Pairwise.nil
    · rw [hres2]
      intro q hq
      simp at hq
  · have hres2 : a.find_multiple_peaks w n_peaks min_freq max_freq height =
        (ord.map fun s => fr.getD (peaks.getD s 0) 0,
         ord.map fun s => pv.getD s 0) := by rw [hres, if_neg hfr]
    have hord_pw : ord.Pairwise (fun s r => pv.getD r 0 ≤ pv.getD s 0) :=
      (argsort_desc_pairwise pv).sublist (List.take_sublist n_peaks _)
    have hsorted : (ord.map fun s => pv.getD s 0).Pairwise
        (fun x y => y ≤ x) := List.pairwise_map.mpr hord_pw
    refine ⟨?_, ?_, fun h => absurd h hfr, ?_, ?_, ?_, ?_⟩
    · rw [hres2, List.length_map, List.length_map]
    · rw [hres2, List.length_map, hord_def, List.length_take]
      exact min_le_left _ _
    · intro hp
      have hp2 : peaks = [] := hp
      have hpv_nil : pv = [] := by rw [hpv_def, hp2]; rfl
      have hord_nil : ord = [] := by
        rw [hord_def, hpv_nil, show argsort_desc [] = [] from rfl, List.take_nil]
      rw [hres2, hord_nil]
      rfl
    · rw [hres2]
      exact hsorted
    · rw [hres2]
      intro hne
      have hand := hsorted.and hne
      apply hand.imp
      intro x y hxy
      exact lt_of_le_of_ne hxy.1 (Ne.symm hxy.2)
    · rw [hres2]
      intro q hq
      rw [List.zip_map'] at hq
      obtain ⟨s, hs, rfl⟩ := List.mem_map.mp hq
      have hs1 : s ∈ argsort_desc pv := List.take_subset n_peaks _ hs
      have hs2 : s < pv.length := (argsort_desc_mem pv s).mp hs1
      have hs3 : s < peaks.length := by rwa [hpv_def, List.length_map] at hs2
      have hp_mem : peaks.getD s 0 ∈ peaks := getD_mem peaks s 0 hs3
      have hpv_s : pv.getD s 0 = sr.getD (peaks.getD s 0) 0 :=
        getD_map_of_lt (fun p => sr.getD p 0) peaks s 0 0 hs3
      have hp_mem2 : peaks.getD s 0 ∈ find_peaks_idx sr height := hp_mem
      obtain ⟨hlm, hh⟩ := (find_peaks_idx_mem sr height _).mp hp_mem2
      obtain ⟨h1, h2, h3, h4⟩ := local_maxima_spec sr _ hlm
      exact ⟨peaks.getD s 0, hp_mem2, rfl, hpv_s, h1, h2, hh, h3, h4⟩

theorem c4_multiple_peaks_witness :
    multiplePeaksProp 1 2 [1, -1] 3 0 none (1 / 10) :=
  c4_multiple_peaks 1 2 [1, -1] 3 0 none (1 / 10)

/-! ## C10 counterexample infrastructure: a 20-sample wave whose normalized
spectrum has a 3-bin plateau of maxima

The wave is supported on indices 0, 5, 10, 15 with values 11/4, -13/4,
-1/4, 3/4: its DFT at bin `k` is `a + b·(-i)^k + c·(-1)^k + d·i^k`, giving
magnitudes `[0, 5, 5, 5]` repeating — after normalization the half-spectrum
is `[0, 1, 1, 1, 0, 1, 1, 1, 0, 1]`, and the searched sub-range
`[1, 1, 1, 0, 1, 1, 1, 0]` contains the plateau `1, 1, 1` (positions 4-6)
that scipy reports at its midpoint 5, an index whose neighbours have equal
value. -/

theorem dftRoot20_pow5 : dftRoot 20 ^ 5 = -Complex.I := by
  have h : dftRoot 20 ^ 5 = Complex.exp (((-(Real.pi / 2) : ℝ) : ℂ) * Complex.I) := by
    rw [dftRoot, ← Complex.exp_nat_mul]
    congr 1
    push_cast
    ring
  rw [h, Complex.exp_mul_I, ← Complex.ofReal_cos, ← Complex.ofReal_sin]
  rw [Real.cos_neg, Real.sin_neg, Real.cos_pi_div_two, Real.sin_pi_div_two]
  simp

theorem negI_pow_four : (-Complex.I) ^ 4 = 1 := by
  rw [neg_pow]
  norm_num [show (4:ℕ) = 2*2 from rfl, pow_mul, Complex.I_sq]

theorem negI_pow_two : (-Complex.I) ^ 2 = -1 := by
  rw [neg_pow]
  norm_num [Complex.I_sq]

theorem negI_pow_three : (-Complex.I) ^ 3 = Complex.I := by
  rw [neg_pow]
  norm_num [pow_succ, Complex.I_sq]

theorem negI_pow_mod (q r : ℕ) :
    (-Complex.I) ^ (4 * q + r) = (-Complex.I) ^ r := by
  rw [pow_add, pow_mul, negI_pow_four, one_pow, one_mul]

set_option maxHeartbeats 3200000 in
theorem dft_w20 :
    dft [11/4, 0, 0, 0, 0, -13/4, 0, 0, 0, 0, -1/4, 0, 0, 0, 0, 3/4, 0, 0, 0, 0] 0 = 0 ∧
    dft [11/4, 0, 0, 0, 0, -13/4, 0, 0, 0, 0, -1/4, 0, 0, 0, 0, 3/4, 0, 0, 0, 0] 1 =
      3 + 4 * Complex.I ∧
    dft [11/4, 0, 0, 0, 0, -13/4, 0, 0, 0, 0, -1/4, 0, 0, 0, 0, 3/4, 0, 0, 0, 0] 2 = 5 ∧
    dft [11/4, 0, 0, 0, 0, -13/4, 0, 0, 0, 0, -1/4, 0, 0, 0, 0, 3/4, 0, 0, 0, 0] 3 =
      3 - 4 * Complex.I ∧
    dft [11/4, 0, 0, 0, 0, -13/4, 0, 0, 0, 0, -1/4, 0, 0, 0, 0, 3/4, 0, 0, 0, 0] 4 = 0 ∧
    dft [11/4, 0, 0, 0, 0, -13/4, 0, 0, 0, 0, -1/4, 0, 0, 0, 0, 3/4, 0, 0, 0, 0] 5 =
      3 + 4 * Complex.I ∧
    dft [11/4, 0, 0, 0, 0, -13/4, 0, 0, 0, 0, -1/4, 0, 0, 0, 0, 3/4, 0, 0, 0, 0] 6 = 5 ∧
    dft [11/4, 0, 0, 0, 0, -13/4, 0, 0, 0, 0, -1/4, 0, 0, 0, 0, 3/4, 0, 0, 0, 0] 7 =
      3 - 4 * Complex.I ∧
    dft [11/4, 0, 0, 0, 0, -13/4, 0, 0, 0, 0, -1/4, 0, 0, 0, 0, 3/4, 0, 0, 0, 0] 8 = 0 ∧
    dft [11/4, 0, 0, 0, 0, -13/4, 0, 0, 0, 0, -1/4, 0, 0, 0, 0, 3/4, 0, 0, 0, 0] 9 =
      3 + 4 * Complex.I := by
  have h5 := dftRoot20_pow5
  have e10 : dftRoot 20 ^ 10 = -1 := by
    rw [show (10:ℕ) = 5 * 2 from rfl, pow_mul, h5, negI_pow_two]
  have e15 : dftRoot 20 ^ 15 = Complex.I := by
    rw [show (15:ℕ) = 5 * 3 from rfl, pow_mul, h5, negI_pow_three]
  have e20 : dftRoot 20 ^ 20 = 1 := by
    rw [show (20:ℕ) = 5 * 4 from rfl, pow_mul, h5, negI_pow_four]
  have e25 : dftRoot 20 ^ 25 = -Complex.I := by
    rw [show (25:ℕ) = 5 * 5 from rfl, pow_mul, h5,
      show (5:ℕ) = 4 * 1 + 1 from rfl, negI_pow_mod, pow_one]
  have e30 : dftRoot 20 ^ 30 = -1 := by
    rw [show (30:ℕ) = 5 * 6 from rfl, pow_mul, h5,
      show (6:ℕ) = 4 * 1 + 2 from rfl, negI_pow_mod, negI_pow_two]
  have e35 : dftRoot 20 ^ 35 = Complex.I := by
    rw [show (35:ℕ) = 5 * 7 from rfl, pow_mul, h5,
      show (7:ℕ) = 4 * 1 + 3 from rfl, negI_pow_mod, negI_pow_three]
  have e40 : dftRoot 20 ^ 40 = 1 := by
    rw [show (40:ℕ) = 5 * 8 from rfl, pow_mul, h5,
      show (8:ℕ) = 4 * 2 + 0 from rfl, negI_pow_mod, pow_zero]
  have e45 : dftRoot 20 ^ 45 = -Complex.I := by
    rw [show (45:ℕ) = 5 * 9 from rfl, pow_mul, h5,
      show (9:ℕ) = 4 * 2 + 1 from rfl, negI_pow_mod, pow_one]
  have e50 : dftRoot 20 ^ 50 = -1 := by
    rw [show (50:ℕ) = 5 * 10 from rfl, pow_mul, h5,
      show (10:ℕ) = 4 * 2 + 2 from rfl, negI_pow_mod, negI_pow_two]
  have e60 : dftRoot 20 ^ 60 = 1 := by
    rw [show (60:ℕ) = 5 * 12 from rfl, pow_mul, h5,
      show (12:ℕ) = 4 * 3 + 0 from rfl, negI_pow_mod, pow_zero]
  have e70 : dftRoot 20 ^ 70 = -1 := by
    rw [show (70:ℕ) = 5 * 14 from rfl, pow_mul, h5,
      show (14:ℕ) = 4 * 3 + 2 from rfl, negI_pow_mod, negI_pow_two]
  have e75 : dftRoot 20 ^ 75 = Complex.I := by
    rw [show (75:ℕ) = 5 * 15 from rfl, pow_mul, h5,
      show (15:ℕ) = 4 * 3 + 3 from rfl, negI_pow_mod, negI_pow_three]
  have e80 : dftRoot 20 ^ 80 = 1 := by
    rw [show (80:ℕ) = 5 * 16 from rfl, pow_mul, h5,
      show (16:ℕ) = 4 * 4 + 0 from rfl, negI_pow_mod, pow_zero]
  have e90 : dftRoot 20 ^ 90 = -1 := by
    rw [show (90:ℕ) = 5 * 18 from rfl, pow_mul, h5,
      show (18:ℕ) = 4 * 4 + 2 from rfl, negI_pow_mod, negI_pow_two]
  have e105 : dftRoot 20 ^ 105 = -Complex.I := by
    rw [show (105:ℕ) = 5 * 21 from rfl, pow_mul, h5,
      show (21:ℕ) = 4 * 5 + 1 from rfl, negI_pow_mod, pow_one]
  have e120 : dftRoot 20 ^ 120 = 1 := by
    rw [show (120:ℕ) = 5 * 24 from rfl, pow_mul, h5,
      show (24:ℕ) = 4 * 6 + 0 from rfl, negI_pow_mod, pow_zero]
  have e135 : dftRoot 20 ^ 135 = Complex.I := by
    rw [show (135:ℕ) = 5 * 27 from rfl, pow_mul, h5,
      show (27:ℕ) = 4 * 6 + 3 from rfl, negI_pow_mod, negI_pow_three]
  refine ⟨?_, ?_, ?_, ?_, ?_, ?_, ?_, ?_, ?_, ?_⟩ <;>
    · norm_num [dft, Finset.sum_range_succ, List.getD, h5, e10, e15, e20, e25,
        e30, e35, e40, e45, e50, e60, e70, e75, e80, e90, e105, e120, e135]
      try ring

theorem abs_three_add_four_I : Complex.abs (3 + 4 * Complex.I) = 5 := by
  rw [show (3 + 4 * Complex.I : ℂ) = ((3:ℝ):ℂ) + ((4:ℝ):ℂ) * Complex.I by push_cast; ring]
  rw [Complex.abs_add_mul_I]
  rw [show (3:ℝ)^2 + (4:ℝ)^2 = 25 by norm_num]
  rw [show (25:ℝ) = 5^2 by norm_num, Real.sqrt_sq (by norm_num : (0:ℝ) ≤ 5)]

theorem abs_three_sub_four_I : Complex.abs (3 - 4 * Complex.I) = 5 := by
  rw [show (3 - 4 * Complex.I : ℂ) = ((3:ℝ):ℂ) + ((-4:ℝ):ℂ) * Complex.I by push_cast; ring]
  rw [Complex.abs_add_mul_I]
  rw [show (3:ℝ)^2 + (-4:ℝ)^2 = 25 by norm_num]
  rw [show (25:ℝ) = 5^2 by norm_num, Real.sqrt_sq (by norm_num : (0:ℝ) ≤ 5)]

theorem spec20_eval :
    WaveformAnalyzer.compute_spectrum ⟨19, 20⟩
      [11/4, 0, 0, 0, 0, -13/4, 0, 0, 0, 0, -1/4, 0, 0, 0, 0, 3/4, 0, 0, 0, 0] false =
      [0, 1/4, 1/4, 1/4, 0, 1/4, 1/4, 1/4, 0, 1/4] := by
  obtain ⟨h0, h1, h2, h3, h4, h5, h6, h7, h8, h9⟩ := dft_w20
  rw [compute_spectrum_false]
  rw [show (min ([(11/4:ℝ), 0, 0, 0, 0, -13/4, 0, 0, 0, 0, -1/4, 0, 0, 0, 0,
      3/4, 0, 0, 0, 0].length) ((⟨19, 20⟩ : WaveformAnalyzer).n_freq)) = 10 from rfl]
  rw [show List.range 10 = [0, 1, 2, 3, 4, 5, 6, 7, 8, 9] from rfl]
  simp only [List.map_cons, List.map_nil, h0, h1, h2, h3, h4, h5, h6, h7, h8, h9,
    abs_three_add_four_I, abs_three_sub_four_I]
  norm_num

theorem nspec20_eval :
    WaveformAnalyzer.compute_spectrum ⟨19, 20⟩
      [11/4, 0, 0, 0, 0, -13/4, 0, 0, 0, 0, -1/4, 0, 0, 0, 0, 3/4, 0, 0, 0, 0] true =
      [0, 1, 1, 1, 0, 1, 1, 1, 0, 1] := by
  rw [compute_spectrum_true_eq, spec20_eval]
  have hmax : np_max [(0:ℝ), 1/4, 1/4, 1/4, 0, 1/4, 1/4, 1/4, 0, 1/4] = 1/4 := by
    norm_num [np_max, max_def]
  rw [hmax, if_pos (by norm_num)]
  norm_num

theorem fp20_eval :
    WaveformAnalyzer.freq_positive ⟨19, 20⟩ =
      [1/20, 1/10, 3/20, 1/5, 1/4, 3/10, 7/20, 2/5, 9/20] := by
  have hdt : (⟨19, 20⟩ : WaveformAnalyzer).dt = 1 := by
    rw [dt_eq 19 20 (by norm_num)]
    norm_num
  have hfreq : WaveformAnalyzer.freq ⟨19, 20⟩ =
      [0, 1/20, 1/10, 3/20, 1/5, 1/4, 3/10, 7/20, 2/5, 9/20] := by
    rw [WaveformAnalyzer.freq, hdt]
    rw [show (⟨19, 20⟩ : WaveformAnalyzer).n_freq = 10 from rfl]
    rw [show List.range 10 = [0, 1, 2, 3, 4, 5, 6, 7, 8, 9] from rfl]
    rw [show ((⟨19, 20⟩ : WaveformAnalyzer).n_samples : ℝ) = 20 from by norm_num]
    norm_num
  rw [WaveformAnalyzer.freq_positive, hfreq]
  norm_num [filter_pos]

theorem lm20_eval : local_maxima [(1:ℝ), 1, 1, 0, 1, 1, 1, 0] = [5] := by
  set x : ℕ → ℝ := fun j => [(1:ℝ), 1, 1, 0, 1, 1, 1, 0].getD j 0 with hx
  have e1 : local_maxima_aux x 8 8 1 = local_maxima_aux x 8 7 2 :=
    lm_aux_norise x 8 7 1 (by norm_num) (by norm_num [hx, List.getD])
  have e2 : local_maxima_aux x 8 7 2 = local_maxima_aux x 8 6 3 :=
    lm_aux_norise x 8 6 2 (by norm_num) (by norm_num [hx, List.getD])
  have e3 : local_maxima_aux x 8 6 3 = local_maxima_aux x 8 5 4 :=
    lm_aux_norise x 8 5 3 (by norm_num) (by norm_num [hx, List.getD])
  have hpe : plateau_end x 8 (x 4) 8 5 = 7 := by
    norm_num [plateau_end, hx, List.getD]
  have e4 : local_maxima_aux x 8 5 4 = 5 :: local_maxima_aux x 8 4 8 :=
    lm_aux_peak x 8 4 4 7 hpe (by norm_num) (by norm_num [hx, List.getD])
      (by norm_num [hx, List.getD])
  have e5 : local_maxima_aux x 8 4 8 = [] :=
    lm_aux_stop x 8 3 8 (by norm_num)
  show local_maxima_aux x 8 8 1 = [5]
  rw [e1, e2, e3, e4, e5]

theorem fmp20_eval :
    WaveformAnalyzer.find_multiple_peaks ⟨19, 20⟩
      [11/4, 0, 0, 0, 0, -13/4, 0, 0, 0, 0, -1/4, 0, 0, 0, 0, 3/4, 0, 0, 0, 0]
      3 0 none (1/10) = ([7/20], [1]) := by
  simp only [WaveformAnalyzer.find_multiple_peaks, nspec20_eval, fp20_eval]
  norm_num [searchsorted_left, find_peaks_idx, lm20_eval, filter_height,
    argsort_desc, insert_desc, List.getD]
  rw [if_neg (show ¬ ([1/10, 3/20, 1/5, 1/4, 3/10, 7/20, 2/5, 9/20] : List ℝ) = []
    by simp)]
  rw [show List.range 1 = [0] from rfl]
  norm_num [insert_desc]

/-! ## C10: edge-of-range policy of find_multiple_peaks -/

/-- C10 as stated: every (frequency, magnitude) pair returned by
`find_multiple_peaks` sits at a sub-range position `p` that is strictly
interior (never the first or last index of the restricted magnitude
sub-range) and is a strict local maximum: magnitude strictly greater than
both immediate neighbours inside the sub-range. -/
def strictPeaksProp (t_max : ℝ) (n : ℕ) (w : List ℝ) (n_peaks : ℕ)
    (min_freq : ℝ) (max_freq : Option ℝ) (height : ℝ) : Prop :=
  let a : WaveformAnalyzer := ⟨t_max, n⟩
  let spectrum := a.compute_spectrum w true
  let fp := a.freq_positive
  let m := max 1 (searchsorted_left min_freq fp)
  let M := match max_freq with
    | none => fp.length
    | some v => searchsorted_left v fp
  let fr := (fp.drop m).take (M - m)
  let sr := (spectrum.drop m).take fr.length
  let res := a.find_multiple_peaks w n_peaks min_freq max_freq height
  ∀ q ∈ res.1.zip res.2, ∃ p, 1 ≤ p ∧ p + 1 < sr.length ∧
    q.1 = fr.getD p 0 ∧ q.2 = sr.getD p 0 ∧
    sr.getD (p - 1) 0 < sr.getD p 0 ∧ sr.getD (p + 1) 0 < sr.getD p 0

/-- C10 (amended): every returned peak sits at an interior sub-range
position (the first and last index of the restricted magnitude sub-range
are never reported), and is a local maximum in the plateau sense: its
magnitude is `≥` both immediate neighbours, with equality possible when the
maximum is a plateau of equal adjacent values (scipy reports the plateau
midpoint, whose neighbours inside the plateau have the same value). -/
def interiorPeaksProp (t_max : ℝ) (n : ℕ) (w : List ℝ) (n_peaks : ℕ)
    (min_freq : ℝ) (max_freq : Option ℝ) (height : ℝ) : Prop :=
  let a : WaveformAnalyzer := ⟨t_max, n⟩
  let spectrum := a.compute_spectrum w true
  let fp := a.freq_positive
  let m := max 1 (searchsorted_left min_freq fp)
  let M := match max_freq with
    | none => fp.length
    | some v => searchsorted_left v fp
  let fr := (fp.drop m).take (M - m)
  let sr := (spectrum.drop m).take fr.length
  let res := a.find_multiple_peaks w n_peaks min_freq max_freq height
  ∀ q ∈ res.1.zip res.2, ∃ p, 1 ≤ p ∧ p + 1 < sr.length ∧
    q.1 = fr.getD p 0 ∧ q.2 = sr.getD p 0 ∧
    sr.getD (p - 1) 0 ≤ sr.getD p 0 ∧ sr.getD (p + 1) 0 ≤ sr.getD p 0

set_option maxHeartbeats 1000000 in
/-- C10 (amended, proved): for every grid, wave and parameter choice, every
returned peak is interior and a weak (plateau-sense) local maximum. -/
theorem c10_peaks_interior (t_max : ℝ) (n : ℕ) (w : List ℝ) (n_peaks : ℕ)
    (min_freq : ℝ) (max_freq : Option ℝ) (height : ℝ) :
    interiorPeaksProp t_max n w n_peaks min_freq max_freq height := by
  set a : WaveformAnalyzer := ⟨t_max, n⟩ with ha
  set spectrum := a.compute_spectrum w true with hspec_def
  set fp := a.freq_positive with hfp_def
  set m := max 1 (searchsorted_left min_freq fp) with hm_def
  set M := (match max_freq with
    | none => fp.length
    | some v => searchsorted_left v fp) with hM_def
  set fr := (fp.drop m).take (M - m) with hfr_def
  set sr := (spectrum.drop m).take fr.length with hsr_def
  set peaks := find_peaks_idx sr height with hpeaks_def
  set pv := peaks.map (fun p => sr.getD p 0) with hpv_def
  set ord := (argsort_desc pv).take n_peaks with hord_def
  have hres : a.find_multiple_peaks w n_peaks min_freq max_freq height =
      if fr = [] then ([], [])
      else (ord.map fun s => fr.getD (peaks.getD s 0) 0,
            ord.map fun s => pv.getD s 0) := by
    simp only [WaveformAnalyzer.find_multiple_peaks]
  by_cases hfr : fr = []
  · have hres2 : a.find_multiple_peaks w n_peaks min_freq max_freq height =
        ([], []) := by rw [hres, if_pos hfr]
    intro q hq
    rw [hres2] at hq
    simp at hq
  · have hres2 : a.find_multiple_peaks w n_peaks min_freq max_freq height =
        (ord.map fun s => fr.getD (peaks.getD s 0) 0,
         ord.map fun s => pv.getD s 0) := by rw [hres, if_neg hfr]
    intro q hq
    rw [hres2] at hq
    rw [List.zip_map'] at hq
    obtain ⟨s, hs, rfl⟩ := List.mem_map.mp hq
    have hs1 : s ∈ argsort_desc pv := List.take_subset n_peaks _ hs
    have hs2 : s < pv.length := (argsort_desc_mem pv s).mp hs1
    have hs3 : s < peaks.length := by rwa [hpv_def, List.length_map] at hs2
    have hp_mem : peaks.getD s 0 ∈ peaks := getD_mem peaks s 0 hs3
    have hpv_s : pv.getD s 0 = sr.getD (peaks.getD s 0) 0 :=
      getD_map_of_lt (fun p => sr.getD p 0) peaks s 0 0 hs3
    have hp_mem2 : peaks.getD s 0 ∈ find_peaks_idx sr height := hp_mem
    obtain ⟨hlm, _⟩ := (find_peaks_idx_mem sr height _).mp hp_mem2
    obtain ⟨h1, h2, h3, h4⟩ := local_maxima_spec sr _ hlm
    exact ⟨peaks.getD s 0, h1, h2, rfl, hpv_s, h3, h4⟩

theorem c10_peaks_interior_witness :
    interiorPeaksProp 19 20
      [11/4, 0, 0, 0, 0, -13/4, 0, 0, 0, 0, -1/4, 0, 0, 0, 0, 3/4, 0, 0, 0, 0]
      3 0 none (1/10) :=
  c10_peaks_interior 19 20
    [11/4, 0, 0, 0, 0, -13/4, 0, 0, 0, 0, -1/4, 0, 0, 0, 0, 3/4, 0, 0, 0, 0]
    3 0 none (1/10)

set_option maxHeartbeats 1000000 in
/-- C10 counterexample: on the valid `t_max = 19`, `n_samples = 20` grid,
the plateau wave's normalized spectrum sub-range is
`[1, 1, 1, 0, 1, 1, 1, 0]`; `find_multiple_peaks` returns the single peak
`(7/20, 1)` at sub-range position 5, the midpoint of the plateau at
positions 4-6 — its neighbours both have magnitude 1 as well, so the peak
is not strictly greater than its immediate neighbours and the claim as
stated is false. -/
theorem c10_counterexample :
    ¬ strictPeaksProp 19 20
      [11/4, 0, 0, 0, 0, -13/4, 0, 0, 0, 0, -1/4, 0, 0, 0, 0, 3/4, 0, 0, 0, 0]
      3 0 none (1/10) := by
  intro h
  have hmem : ((7:ℝ)/20, (1:ℝ)) ∈
      ((WaveformAnalyzer.find_multiple_peaks ⟨19, 20⟩
        [11/4, 0, 0, 0, 0, -13/4, 0, 0, 0, 0, -1/4, 0, 0, 0, 0, 3/4, 0, 0, 0, 0]
        3 0 none (1/10)).1.zip
       (WaveformAnalyzer.find_multiple_peaks ⟨19, 20⟩
        [11/4, 0, 0, 0, 0, -13/4, 0, 0, 0, 0, -1/4, 0, 0, 0, 0, 3/4, 0, 0, 0, 0]
        3 0 none (1/10)).2) := by
    rw [fmp20_eval]
    simp
  obtain ⟨p, hp1, hp2, hq1, hq2, hs1, hs2⟩ := h _ hmem
  simp only [fp20_eval, nspec20_eval] at hp2 hq1 hs2
  norm_num [searchsorted_left, List.getD] at hp2 hq1 hs2
  have hub : p < 7 := by omega
  interval_cases p <;> norm_num [List.getD] at hq1 hs2

end WaveformSpec
